import Mathlib

/-! Mask operations: region queries and patch sampling.

A shallow embedding of `MaskOperations.cpp` (hole traversal, hole bounding box,
enumeration and random sampling of fully valid patches) together with the
properties of these routines.

Conventions of the embedding:

* `itk::Index<2>` components are integers; `itk::Size<2>` components and the
  `unsigned int` parameters (`patchRadius`, `maxNumberOfAttempts`) are natural
  numbers. Arithmetic carried out in `unsigned int` reduces modulo `2^32`: the
  patch side `patchRadius * 2 + 1` and the counter `numberOfAttempts++` of the
  bounded overload. The signed value stored into an unsigned size in
  `ComputeHoleBoundingBox` reduces modulo `2^64`.
* The specification writes a pixel as (row, col); the row is component `[1]` of
  the `itk::Index<2>` and the column is component `[0]`, the component that the
  first coordinate of a direction vector steps.
* An image iterator over a region visits the indices of that region in raster
  order (component `[0]` fastest); a `while(!it.IsAtEnd())` loop is a left fold
  over that list.
* The process-wide random generator is a stream `draws : Nat → Nat`; the `k`-th
  call of `rand()` yields `draws k`.
* A thrown `std::runtime_error` is an `error` result; loops take a fuel argument
  and yield `none` when it runs out, and the theorems state how much fuel makes
  a call return.
-/

namespace MaskOperations

/-! ## Geometry primitives -/

/-- Pixel coordinate (`itk::Index<2>`): `i0` is component `[0]`, `i1` is component `[1]`. -/
structure Index where
  i0 : Int
  i1 : Int
deriving DecidableEq, Repr

/-- Extent in pixels along each axis (`itk::Size<2>`). -/
structure Size where
  s0 : Nat
  s1 : Nat
deriving DecidableEq, Repr

/-- Axis-aligned rectangle (`itk::ImageRegion<2>`): corner index and size. -/
structure ImageRegion where
  index : Index
  size : Size
deriving DecidableEq, Repr

/-- Modelled from the spec: `Region.Contains(Index)` (`itk::ImageRegion::IsInside(index)`),
the index lies in the half-open box `[index, index + size)` on both axes. -/
def ImageRegion.IsInside (r : ImageRegion) (p : Index) : Bool :=
  decide (r.index.i0 ≤ p.i0) && decide (p.i0 < r.index.i0 + r.size.s0) &&
    (decide (r.index.i1 ≤ p.i1) && decide (p.i1 < r.index.i1 + r.size.s1))

/-- Last index of a region, `index + size - 1` on each axis. -/
def ImageRegion.endCorner (r : ImageRegion) : Index :=
  ⟨r.index.i0 + r.size.s0 - 1, r.index.i1 + r.size.s1 - 1⟩

/-- Modelled from the spec: `Region.Contains(Region)` (`itk::ImageRegion::IsInside(region)`),
both the first and the last index of `inner` lie inside `r`. -/
def ImageRegion.IsInsideRegion (r inner : ImageRegion) : Bool :=
  r.IsInside inner.index && r.IsInside inner.endCorner

/-- Indices visited by an image iterator over `r`: raster order, component `[0]` fastest. -/
def ImageRegion.indices (r : ImageRegion) : List Index :=
  (List.range r.size.s1).flatMap fun (j : Nat) =>
    (List.range r.size.s0).map fun (i : Nat) => Index.mk (r.index.i0 + (i : Int)) (r.index.i1 + (j : Int))

/-! ## The mask collaborator -/

/-- Classification of a mask pixel. -/
inductive PixelClass where
  | VALID
  | HOLE
deriving DecidableEq, Repr

/-- Modelled from the spec: the `Mask` class is not part of the sources. A mask is its full
extent (`GetLargestPossibleRegion`) and a classification of indices; the classification is a
total function, so a read at an index outside the extent yields some unspecified class. -/
structure Mask where
  largestPossibleRegion : ImageRegion
  pixel : Index → PixelClass

/-- Modelled from the spec: `Mask::IsValid(Index)`, the pixel is classified VALID. -/
def Mask.IsValid (m : Mask) (p : Index) : Bool :=
  decide (m.pixel p = PixelClass.VALID)

/-- Modelled from the spec: `Mask::IsHole(Index)`, the pixel is classified HOLE. -/
def Mask.IsHole (m : Mask) (p : Index) : Bool :=
  decide (m.pixel p = PixelClass.HOLE)

/-- Modelled from the spec: `Mask::IsValid(Region)`. A region is fully valid iff it lies inside
the mask's full extent and every index it contains is classified VALID. -/
def Mask.IsValidRegion (m : Mask) (r : ImageRegion) : Bool :=
  m.largestPossibleRegion.IsInsideRegion r && r.indices.all m.IsValid

/-- Modelled from the spec: `Mask::IsHole(Region)`. A region is fully hole iff it lies inside
the mask's full extent and every index it contains is classified HOLE. -/
def Mask.IsHoleRegion (m : Mask) (r : ImageRegion) : Bool :=
  m.largestPossibleRegion.IsInsideRegion r && r.indices.all m.IsHole

/-! ## Exhaustive enumeration of fully valid patches -/

/-- The patch size: `patchRadius * 2 + 1` on both axes, computed in 32-bit `unsigned int`
arithmetic (it wraps for `patchRadius ≥ 2^31`) and then stored in the `itk::Size`. -/
def patchSize (patchRadius : Nat) : Size :=
  ⟨(patchRadius * 2 + 1) % 2 ^ 32, (patchRadius * 2 + 1) % 2 ^ 32⟩

/-- One iteration of the loop of `GetAllFullyValidRegions` at iterator position `idx`. -/
def fullyValidStep (mask : Mask) (searchRegion : ImageRegion) (patchRadius : Nat)
    (fullyValidRegions : List ImageRegion) (idx : Index) : List ImageRegion :=
  let region : ImageRegion := ⟨idx, patchSize patchRadius⟩
  if searchRegion.IsInsideRegion region && mask.IsValidRegion region then
    fullyValidRegions ++ [region]
  else
    fullyValidRegions

/-- The function `GetAllFullyValidRegions(mask, searchRegion, patchRadius)`: the scan of
`searchRegion` that collects the patch at each iterator position passing the two tests. -/
def GetAllFullyValidRegions (mask : Mask) (searchRegion : ImageRegion) (patchRadius : Nat) :
    List ImageRegion :=
  searchRegion.indices.foldl (fullyValidStep mask searchRegion patchRadius) []

/-- Brute-force reference, following the specification: every pixel position of `searchRegion`
is a candidate corner, and the square patch of side `2 * patchRadius + 1` at that corner is kept
iff it lies inside `searchRegion` and is fully valid. -/
def bruteForceFullyValidRegions (mask : Mask) (searchRegion : ImageRegion) (patchRadius : Nat) :
    List ImageRegion :=
  (searchRegion.indices.map fun c =>
    (⟨c, ⟨2 * patchRadius + 1, 2 * patchRadius + 1⟩⟩ : ImageRegion)).filter
      fun R => searchRegion.IsInsideRegion R && mask.IsValidRegion R

/-! ## Random sampling of a valid patch -/

/-- Modelled from the spec: `Helpers::RandomInt(min, max)`, an integer of the inclusive range
`[min, max]`, computed from one value `raw` of the random generator. Every value of the range
is produced by some `raw`. -/
def RandomInt (raw : Nat) (min max : Int) : Int :=
  min + (raw : Int) % (max - min + 1)

/-- The candidate region formed in pass `k` (counted from 0) of the sampling loop: `randX` and
`randY` are drawn over the index range of `searchRegion`, in this order, and the region has the
patch size. -/
def randomCandidate (searchRegion : ImageRegion) (patchRadius : Nat) (draws : Nat → Nat)
    (k : Nat) : ImageRegion :=
  let randX := RandomInt (draws (2 * k)) searchRegion.index.i0
    (searchRegion.index.i0 + searchRegion.size.s0 - 1)
  let randY := RandomInt (draws (2 * k + 1)) searchRegion.index.i1
    (searchRegion.index.i1 + searchRegion.size.s1 - 1)
  ⟨⟨randX, randY⟩, patchSize patchRadius⟩

/-- The loop condition's acceptance test:
`mask->GetLargestPossibleRegion().IsInside(region) && mask->IsValid(region)`. -/
def acceptsPatch (mask : Mask) (region : ImageRegion) : Bool :=
  mask.largestPossibleRegion.IsInsideRegion region && mask.IsValidRegion region

/-- The `do ... while` loop of the overload with `maxNumberOfAttempts`. The second argument is
the number of passes already made (it selects the random values of the pass), the third is the
32-bit `unsigned int` counter `numberOfAttempts` on entry of the pass; `numberOfAttempts++`
wraps at `2^32`. -/
def boundedLoop (mask : Mask) (searchRegion : ImageRegion) (patchRadius : Nat)
    (maxNumberOfAttempts : Nat) (draws : Nat → Nat) : Nat → Nat → Nat → Option ImageRegion
  | 0, _, _ => none
  | fuel + 1, pass, numberOfAttempts =>
    let region := randomCandidate searchRegion patchRadius draws pass
    let numberOfAttempts := (numberOfAttempts + 1) % 2 ^ 32
    if numberOfAttempts > maxNumberOfAttempts then
      some ⟨region.index, ⟨0, 0⟩⟩
    else if acceptsPatch mask region then
      some region
    else
      boundedLoop mask searchRegion patchRadius maxNumberOfAttempts draws fuel (pass + 1)
        numberOfAttempts

/-- The bounded overload
`GetRandomValidPatchInRegion(mask, searchRegion, patchRadius, maxNumberOfAttempts)`. -/
def GetRandomValidPatchInRegion (fuel : Nat) (mask : Mask) (searchRegion : ImageRegion)
    (patchRadius : Nat) (maxNumberOfAttempts : Nat) (draws : Nat → Nat) : Option ImageRegion :=
  boundedLoop mask searchRegion patchRadius maxNumberOfAttempts draws fuel 0 0

/-- The threshold `maxRandomAttemps` of the overload without `maxNumberOfAttempts`. -/
def maxRandomAttemps : Nat := 10

/-- The `do ... while` loop of the overload without `maxNumberOfAttempts`; the second argument is
`numberOfAttempts` on entry of the pass. -/
def fallbackLoop (mask : Mask) (searchRegion : ImageRegion) (patchRadius : Nat)
    (draws : Nat → Nat) : Nat → Nat → Option ImageRegion
  | 0, _ => none
  | fuel + 1, numberOfAttempts =>
    let region := randomCandidate searchRegion patchRadius draws numberOfAttempts
    let numberOfAttempts := numberOfAttempts + 1
    if numberOfAttempts > maxRandomAttemps then
      let allRegions := GetAllFullyValidRegions mask searchRegion patchRadius
      if allRegions.length = 0 then
        some ⟨region.index, ⟨0, 0⟩⟩
      else
        let randomIndex := RandomInt (draws (2 * numberOfAttempts)) 0 ((allRegions.length : Int) - 1)
        allRegions[randomIndex.toNat]?
    else if acceptsPatch mask region then
      some region
    else
      fallbackLoop mask searchRegion patchRadius draws fuel numberOfAttempts

/-- The overload `GetRandomValidPatchInRegion(mask, searchRegion, patchRadius)`, which falls
back on the exhaustive enumeration. -/
def GetRandomValidPatchInRegionFallback (fuel : Nat) (mask : Mask) (searchRegion : ImageRegion)
    (patchRadius : Nat) (draws : Nat → Nat) : Option ImageRegion :=
  fallbackLoop mask searchRegion patchRadius draws fuel 0

/-- The null region: size 0x0. -/
def ImageRegion.IsNull (r : ImageRegion) : Bool :=
  decide (r.size = ⟨0, 0⟩)

/-! ## Hole bounding box -/

/-- Storing a signed value into an `itk::Size` component (unsigned, 64 bits). -/
def toSizeValue (z : Int) : Nat :=
  (z % 2 ^ 64).toNat

/-- One iteration of the scan of `ComputeHoleBoundingBox`: the running `(min, max)` pair is
updated at a HOLE pixel. -/
def holeBoxStep (mask : Mask) (acc : Index × Index) (currentIndex : Index) : Index × Index :=
  if mask.IsHole currentIndex then
    let min := acc.1
    let max := acc.2
    let min : Index := if currentIndex.i0 < min.i0 then ⟨currentIndex.i0, min.i1⟩ else min
    let min : Index := if currentIndex.i1 < min.i1 then ⟨min.i0, currentIndex.i1⟩ else min
    let max : Index := if currentIndex.i0 > max.i0 then ⟨currentIndex.i0, max.i1⟩ else max
    let max : Index := if currentIndex.i1 > max.i1 then ⟨max.i0, currentIndex.i1⟩ else max
    (min, max)
  else
    acc

/-- The function `ComputeHoleBoundingBox(mask)`: `min` starts at the size of the full extent,
`max` at `(0, 0)`, and the size stored is `max - min + 1` on each axis. -/
def ComputeHoleBoundingBox (mask : Mask) : ImageRegion :=
  let min : Index := ⟨mask.largestPossibleRegion.size.s0, mask.largestPossibleRegion.size.s1⟩
  let max : Index := ⟨0, 0⟩
  let minmax := mask.largestPossibleRegion.indices.foldl (holeBoxStep mask) (min, max)
  ⟨minmax.1, ⟨toSizeValue (minmax.2.i0 - minmax.1.i0 + 1),
    toSizeValue (minmax.2.i1 - minmax.1.i1 + 1)⟩⟩

/-! ## Directional hole traversal -/

/-- Modelled from the spec: the floating-point direction vector and
`ITKHelpers::GetNextPixelAlongVector` are not part of the sources. A direction is represented
by the one-pixel step offset that its normalised, rounded vector gives (`d0` on component `[0]`,
`d1` on component `[1]`). -/
structure Direction where
  d0 : Int
  d1 : Int
deriving DecidableEq, Repr

/-- The negated direction (`direction *= -1.0`): its step offset is the negated offset. -/
def Direction.neg (d : Direction) : Direction :=
  ⟨-d.d0, -d.d1⟩

/-- Modelled from the spec: `ITKHelpers::GetNextPixelAlongVector(pixel, direction)`, one pixel
step from `pixel` along `direction`. -/
def GetNextPixelAlongVector (pixel : Index) (direction : Direction) : Index :=
  ⟨pixel.i0 + direction.d0, pixel.i1 + direction.d1⟩

/-- The two `std::runtime_error`s of `FindPixelAcrossHole`. -/
inductive TraversalError where
  | invalidStart
  | traversalOutOfBounds
deriving DecidableEq, Repr

/-- Result of `FindPixelAcrossHole`: the returned index or the error thrown. -/
inductive TraversalResult where
  | ok (pixel : Index)
  | error (e : TraversalError)
deriving DecidableEq, Repr

/-- The loop `while(mask->IsHole(nextPixelAlongVector))` of `FindPixelAcrossHole`, started at
`nextPixelAlongVector`; `none` when the fuel runs out. -/
def traceAcrossHole (mask : Mask) (direction : Direction) :
    Nat → Index → Option TraversalResult
  | 0, _ => none
  | fuel + 1, nextPixelAlongVector =>
    if mask.IsHole nextPixelAlongVector then
      let nextPixelAlongVector := GetNextPixelAlongVector nextPixelAlongVector direction
      if !mask.largestPossibleRegion.IsInside nextPixelAlongVector then
        some (TraversalResult.error TraversalError.traversalOutOfBounds)
      else
        traceAcrossHole mask direction fuel nextPixelAlongVector
    else
      some (TraversalResult.ok nextPixelAlongVector)

/-- The function `FindPixelAcrossHole(queryPixel, inputDirection, mask)`. -/
def FindPixelAcrossHole (fuel : Nat) (queryPixel : Index) (inputDirection : Direction)
    (mask : Mask) : Option TraversalResult :=
  if !mask.IsValid queryPixel then
    some (TraversalResult.error TraversalError.invalidStart)
  else
    let direction := inputDirection
    let nextPixelAlongVector := GetNextPixelAlongVector queryPixel direction
    if mask.largestPossibleRegion.IsInside nextPixelAlongVector &&
        mask.IsHole nextPixelAlongVector then
      traceAcrossHole mask direction fuel nextPixelAlongVector
    else
      let direction := direction.neg
      let nextPixelAlongVector := GetNextPixelAlongVector queryPixel direction
      traceAcrossHole mask direction fuel nextPixelAlongVector

/-- The direction that `FindPixelAcrossHole` traverses: `inputDirection` when the next pixel
along it is in bounds and HOLE, the negated direction otherwise. -/
def chosenDirection (queryPixel : Index) (inputDirection : Direction) (mask : Mask) : Direction :=
  if mask.largestPossibleRegion.IsInside (GetNextPixelAlongVector queryPixel inputDirection) &&
      mask.IsHole (GetNextPixelAlongVector queryPixel inputDirection) then
    inputDirection
  else
    inputDirection.neg

/-- The pixel `k` steps from `pixel` along `direction`. -/
def pixelAlong (pixel : Index) (direction : Direction) (k : Nat) : Index :=
  ⟨pixel.i0 + (k : Int) * direction.d0, pixel.i1 + (k : Int) * direction.d1⟩

/-! ## Random regions inside the hole and inside the valid part -/

/-- Modelled from the spec: `Mask::GetHolePixelsInRegion(region)`, the indices of `region`
classified HOLE, in raster order. -/
def Mask.GetHolePixelsInRegion (m : Mask) (region : ImageRegion) : List Index :=
  region.indices.filter m.IsHole

/-- Modelled from the spec: `ITKHelpers::GetRegionInRadiusAroundPixel(pixel, radius)`, the
square region of side `2 * radius + 1` centred on `pixel`. -/
def GetRegionInRadiusAroundPixel (pixel : Index) (radius : Nat) : ImageRegion :=
  ⟨⟨pixel.i0 - (radius : Int), pixel.i1 - (radius : Int)⟩, ⟨2 * radius + 1, 2 * radius + 1⟩⟩

/-- Outcome of a rejection-sampling routine: the region returned, or the evaluation of
`rand() % 0` on an empty candidate list (undefined behaviour in the source). -/
inductive SamplingResult where
  | region (r : ImageRegion)
  | divisionByZero
deriving DecidableEq, Repr

/-- The `do ... while` loop of `RandomRegionInsideHole`; pass `k` (counted from 0) consumes the
random value `draws k`. The result is `none` when the fuel runs out. -/
def randomRegionInsideHoleLoop (mask : Mask) (halfWidth : Nat) (holePixels : List Index)
    (draws : Nat → Nat) : Nat → Nat → Option SamplingResult
  | 0, _ => none
  | fuel + 1, k =>
    if h : holePixels.length = 0 then
      some SamplingResult.divisionByZero
    else
      let randomPixel :=
        holePixels.get ⟨draws k % holePixels.length, Nat.mod_lt _ (Nat.pos_of_ne_zero h)⟩
      let randomRegion := GetRegionInRadiusAroundPixel randomPixel halfWidth
      if !mask.IsHoleRegion randomRegion then
        randomRegionInsideHoleLoop mask halfWidth holePixels draws fuel (k + 1)
      else
        some (SamplingResult.region randomRegion)

/-- The function `RandomRegionInsideHole(mask, halfWidth)`. -/
def RandomRegionInsideHole (fuel : Nat) (mask : Mask) (halfWidth : Nat) (draws : Nat → Nat) :
    Option SamplingResult :=
  let holePixels := mask.GetHolePixelsInRegion mask.largestPossibleRegion
  randomRegionInsideHoleLoop mask halfWidth holePixels draws fuel 0

/-- Raster order on indices: component `[1]` first, then component `[0]`. -/
def rasterBefore (p q : Index) : Bool :=
  decide (p.i1 < q.i1 ∨ (p.i1 = q.i1 ∧ p.i0 < q.i0))

/-! ## Example masks -/

/-- A 3x3 mask at the origin, every pixel VALID. -/
def allValid3 : Mask :=
  ⟨⟨⟨0, 0⟩, ⟨3, 3⟩⟩, fun _ => PixelClass.VALID⟩

/-- A 30x30 mask at the origin, VALID everywhere except the indices `[5, 10] .. [5, 19]`: a
corridor along component `[1]`. -/
def corridorMask : Mask :=
  ⟨⟨⟨0, 0⟩, ⟨30, 30⟩⟩, fun p =>
    if p.i0 = 5 ∧ 10 ≤ p.i1 ∧ p.i1 ≤ 19 then PixelClass.HOLE else PixelClass.VALID⟩

/-- The corridor of the specification's example, on a 30x30 mask at the origin: VALID everywhere
except columns 10 to 19 of row 5, that is the indices `[10, 5] .. [19, 5]` (the column is
component `[0]`, the row is component `[1]`). -/
def specCorridorMask : Mask :=
  ⟨⟨⟨0, 0⟩, ⟨30, 30⟩⟩, fun p =>
    if p.i1 = 5 ∧ 10 ≤ p.i0 ∧ p.i0 ≤ 19 then PixelClass.HOLE else PixelClass.VALID⟩

/-- A 10x10 mask at the origin whose hole `(5, 5) .. (5, 9)` reaches the last index of
component `[1]`. -/
def edgeHoleMask : Mask :=
  ⟨⟨⟨0, 0⟩, ⟨10, 10⟩⟩, fun p =>
    if p.i0 = 5 ∧ 5 ≤ p.i1 then PixelClass.HOLE else PixelClass.VALID⟩

/-- A 4x4 mask at the origin, every pixel VALID. -/
def allValid4 : Mask :=
  ⟨⟨⟨0, 0⟩, ⟨4, 4⟩⟩, fun _ => PixelClass.VALID⟩

/-- A 5x5 mask whose extent starts at `(10, 10)`, with the single HOLE pixel `(12, 12)`. -/
def shiftedMask : Mask :=
  ⟨⟨⟨10, 10⟩, ⟨5, 5⟩⟩, fun p =>
    if p.i0 = 12 ∧ p.i1 = 12 then PixelClass.HOLE else PixelClass.VALID⟩

/-- The 100x100 mask of `TestComputeHoleBoundingBox`: VALID except where both components are
strictly between 50 and 70. -/
def testMask : Mask :=
  ⟨⟨⟨0, 0⟩, ⟨100, 100⟩⟩, fun p =>
    if p.i0 > 50 ∧ p.i0 < 70 ∧ p.i1 > 50 ∧ p.i1 < 70 then PixelClass.HOLE else PixelClass.VALID⟩

/-- A random sequence whose first two values are 3 and whose other values are 1. -/
def sampleDraws : Nat → Nat :=
  fun k => if k < 2 then 3 else 1

/-- The random sequence that is constantly 3. -/
def constantDraws : Nat → Nat :=
  fun _ => 3

/-- A 3x3 mask at the origin whose only HOLE pixel is the centre `(1, 1)`. -/
def centreHoleMask : Mask :=
  ⟨⟨⟨0, 0⟩, ⟨3, 3⟩⟩, fun p =>
    if p.i0 = 1 ∧ p.i1 = 1 then PixelClass.HOLE else PixelClass.VALID⟩

/-- A 3x3 mask at the origin, every pixel HOLE. -/
def allHole3 : Mask :=
  ⟨⟨⟨0, 0⟩, ⟨3, 3⟩⟩, fun _ => PixelClass.HOLE⟩

/-- A random sequence whose first two values are 0 and whose other values are 4. -/
def centreDraws : Nat → Nat :=
  fun k => if k < 2 then 0 else 4

/-! ## Properties -/

theorem ImageRegion.isInside_iff (r : ImageRegion) (p : Index) :
    r.IsInside p = true ↔
      (r.index.i0 ≤ p.i0 ∧ p.i0 < r.index.i0 + r.size.s0) ∧
        (r.index.i1 ≤ p.i1 ∧ p.i1 < r.index.i1 + r.size.s1) := by
  simp [ImageRegion.IsInside]

theorem ImageRegion.mem_indices (r : ImageRegion) (p : Index) :
    p ∈ r.indices ↔ r.IsInside p = true := by
  rw [ImageRegion.isInside_iff]
  simp only [ImageRegion.indices, List.mem_flatMap, List.mem_map, List.mem_range]
  constructor
  · rintro ⟨j, hj, i, hi, rfl⟩
    simp only
    omega
  · rintro ⟨⟨h1, h2⟩, h3, h4⟩
    refine ⟨(p.i1 - r.index.i1).toNat, ?_, (p.i0 - r.index.i0).toNat, ?_, ?_⟩
    · omega
    · omega
    · cases p with
      | mk a b =>
        simp only [Index.mk.injEq] at *
        constructor <;> omega

theorem ImageRegion.isInsideRegion_iff (r inner : ImageRegion)
    (h0 : 0 < inner.size.s0) (h1 : 0 < inner.size.s1) :
    r.IsInsideRegion inner = true ↔ ∀ p, inner.IsInside p = true → r.IsInside p = true := by
  simp only [ImageRegion.IsInsideRegion, Bool.and_eq_true, ImageRegion.isInside_iff,
    ImageRegion.endCorner]
  constructor
  · rintro ⟨⟨⟨a1, a2⟩, a3, a4⟩, ⟨b1, b2⟩, b3, b4⟩ p ⟨⟨c1, c2⟩, c3, c4⟩
    refine ⟨⟨?_, ?_⟩, ?_, ?_⟩ <;> omega
  · intro h
    have hb := h inner.index ⟨⟨by omega, by omega⟩, by omega, by omega⟩
    have he := h ⟨inner.index.i0 + inner.size.s0 - 1, inner.index.i1 + inner.size.s1 - 1⟩
      ⟨⟨by simp only; omega, by simp only; omega⟩, by simp only; omega, by simp only; omega⟩
    exact ⟨hb, he⟩

theorem Mask.isValidRegion_iff (m : Mask) (R : ImageRegion)
    (h0 : 0 < R.size.s0) (h1 : 0 < R.size.s1) :
    m.IsValidRegion R = true ↔
      ∀ p, R.IsInside p = true →
        m.largestPossibleRegion.IsInside p = true ∧ m.pixel p = PixelClass.VALID := by
  simp only [Mask.IsValidRegion, Bool.and_eq_true, List.all_eq_true, ImageRegion.mem_indices,
    ImageRegion.isInsideRegion_iff _ _ h0 h1, Mask.IsValid, decide_eq_true_eq]
  constructor
  · rintro ⟨h, k⟩ p hp
    exact ⟨h p hp, k p hp⟩
  · intro h
    exact ⟨fun p hp => (h p hp).1, fun p hp => (h p hp).2⟩

theorem foldl_fullyValidStep (mask : Mask) (sr : ImageRegion) (r : Nat) (l : List Index)
    (acc : List ImageRegion) :
    l.foldl (fullyValidStep mask sr r) acc =
      acc ++ (l.map fun c => (⟨c, patchSize r⟩ : ImageRegion)).filter
        fun R => sr.IsInsideRegion R && mask.IsValidRegion R := by
  induction l generalizing acc with
  | nil => simp
  | cons c cs ih =>
    rw [List.foldl_cons, ih]
    by_cases h : (sr.IsInsideRegion ⟨c, patchSize r⟩ && mask.IsValidRegion ⟨c, patchSize r⟩) = true
    · simp [fullyValidStep, List.filter_cons, h]
    · simp [fullyValidStep, List.filter_cons, h]

theorem patchSize_pos (r : Nat) : 0 < (patchSize r).s0 ∧ 0 < (patchSize r).s1 := by
  simp only [patchSize]
  omega

theorem patchSize_of_lt (r : Nat) (hr : r < 2 ^ 31) :
    patchSize r = ⟨2 * r + 1, 2 * r + 1⟩ := by
  have e : (r * 2 + 1) % 2 ^ 32 = 2 * r + 1 := by omega
  simp only [patchSize, e]

theorem getAllFullyValidRegions_eq_filter (mask : Mask) (sr : ImageRegion) (r : Nat) :
    GetAllFullyValidRegions mask sr r =
      (sr.indices.map fun c => (⟨c, patchSize r⟩ : ImageRegion)).filter
        fun R => sr.IsInsideRegion R && mask.IsValidRegion R := by
  simp [GetAllFullyValidRegions, foldl_fullyValidStep]

theorem getAllFullyValidRegions_eq_bruteForce (mask : Mask) (sr : ImageRegion) (r : Nat)
    (hr : r < 2 ^ 31) :
    GetAllFullyValidRegions mask sr r = bruteForceFullyValidRegions mask sr r := by
  rw [getAllFullyValidRegions_eq_filter, bruteForceFullyValidRegions, patchSize_of_lt r hr]

theorem mem_getAllFullyValidRegions (mask : Mask) (sr : ImageRegion) (r : Nat) (R : ImageRegion) :
    R ∈ GetAllFullyValidRegions mask sr r ↔
      (sr.IsInside R.index = true ∧ R.size = patchSize r) ∧
        sr.IsInsideRegion R = true ∧ mask.IsValidRegion R = true := by
  rw [getAllFullyValidRegions_eq_filter, List.mem_filter, List.mem_map, Bool.and_eq_true]
  constructor
  · rintro ⟨⟨c, hc, rfl⟩, h⟩
    exact ⟨⟨(ImageRegion.mem_indices sr c).1 hc, rfl⟩, h⟩
  · rintro ⟨⟨hc, hs⟩, h⟩
    refine ⟨⟨R.index, (ImageRegion.mem_indices sr R.index).2 hc, ?_⟩, h⟩
    cases R with
    | mk i s =>
      simp only at hs
      rw [hs]

/-- C1 (counterexample): with `patchRadius = 2^31` the side `patchRadius * 2 + 1` wraps to 1 in
32-bit arithmetic: on the 3x3 all-VALID mask the returned list contains the 1x1 region at
`(0, 0)`, which is not a square of side `2 * 2^31 + 1`. -/
theorem getAllFullyValidRegions_side_wraps :
    (⟨⟨0, 0⟩, ⟨1, 1⟩⟩ : ImageRegion) ∈
        GetAllFullyValidRegions allValid3 ⟨⟨0, 0⟩, ⟨3, 3⟩⟩ 2147483648 ∧
      (⟨⟨0, 0⟩, ⟨1, 1⟩⟩ : ImageRegion).size ≠ ⟨2 * 2147483648 + 1, 2 * 2147483648 + 1⟩ := by
  decide

/-- C1 (amended, soundness of `GetAllFullyValidRegions`): every region of the returned list
lies inside `searchRegion` and every index it contains is a pixel of the mask classified VALID;
it is a square of side `(2 * patchRadius + 1) mod 2^32`, which is `2 * patchRadius + 1` whenever
`patchRadius < 2^31`. -/
theorem getAllFullyValidRegions_sound (mask : Mask) (searchRegion : ImageRegion)
    (patchRadius : Nat) (R : ImageRegion)
    (hR : R ∈ GetAllFullyValidRegions mask searchRegion patchRadius) :
    R.size = ⟨(2 * patchRadius + 1) % 2 ^ 32, (2 * patchRadius + 1) % 2 ^ 32⟩ ∧
      (patchRadius < 2 ^ 31 → R.size = ⟨2 * patchRadius + 1, 2 * patchRadius + 1⟩) ∧
      (∀ p, R.IsInside p = true → searchRegion.IsInside p = true) ∧
      (∀ p, R.IsInside p = true →
        mask.largestPossibleRegion.IsInside p = true ∧ mask.IsValid p = true ∧
          mask.pixel p = PixelClass.VALID) := by
  obtain ⟨⟨_, hs⟩, hin, hv⟩ := (mem_getAllFullyValidRegions mask searchRegion patchRadius R).1 hR
  have h0 : 0 < R.size.s0 := by rw [hs]; exact (patchSize_pos patchRadius).1
  have h1 : 0 < R.size.s1 := by rw [hs]; exact (patchSize_pos patchRadius).2
  refine ⟨?_, ?_, (ImageRegion.isInsideRegion_iff _ _ h0 h1).1 hin, ?_⟩
  · rw [hs, patchSize, Nat.mul_comm]
  · intro hr
    rw [hs, patchSize_of_lt patchRadius hr]
  · intro p hp
    have := (Mask.isValidRegion_iff mask R h0 h1).1 hv p hp
    exact ⟨this.1, by simp [Mask.IsValid, this.2], this.2⟩

theorem getAllFullyValidRegions_sound_witness :
    (⟨⟨0, 0⟩, ⟨3, 3⟩⟩ : ImageRegion) ∈
        GetAllFullyValidRegions allValid3 ⟨⟨0, 0⟩, ⟨3, 3⟩⟩ 1 ∧
      (⟨⟨0, 0⟩, ⟨3, 3⟩⟩ : ImageRegion).size = ⟨(2 * 1 + 1) % 2 ^ 32, (2 * 1 + 1) % 2 ^ 32⟩ ∧
      (1 < 2 ^ 31 → (⟨⟨0, 0⟩, ⟨3, 3⟩⟩ : ImageRegion).size = ⟨2 * 1 + 1, 2 * 1 + 1⟩) ∧
      (∀ p, (⟨⟨0, 0⟩, ⟨3, 3⟩⟩ : ImageRegion).IsInside p = true →
        (⟨⟨0, 0⟩, ⟨3, 3⟩⟩ : ImageRegion).IsInside p = true) ∧
      (∀ p, (⟨⟨0, 0⟩, ⟨3, 3⟩⟩ : ImageRegion).IsInside p = true →
        allValid3.largestPossibleRegion.IsInside p = true ∧ allValid3.IsValid p = true ∧
          allValid3.pixel p = PixelClass.VALID) :=
  ⟨by decide, getAllFullyValidRegions_sound allValid3 ⟨⟨0, 0⟩, ⟨3, 3⟩⟩ 1 ⟨⟨0, 0⟩, ⟨3, 3⟩⟩
    (by decide)⟩

/-- C2 (counterexample): with `patchRadius = 2^31` on the 3x3 all-VALID mask the returned list
has the nine 1x1 regions of the mask, while the brute-force reference for squares of side
`2 * 2^31 + 1` is empty: the two lists differ. -/
theorem getAllFullyValidRegions_ne_bruteForce :
    (GetAllFullyValidRegions allValid3 ⟨⟨0, 0⟩, ⟨3, 3⟩⟩ 2147483648).length = 9 ∧
      bruteForceFullyValidRegions allValid3 ⟨⟨0, 0⟩, ⟨3, 3⟩⟩ 2147483648 = [] ∧
      GetAllFullyValidRegions allValid3 ⟨⟨0, 0⟩, ⟨3, 3⟩⟩ 2147483648 ≠
        bruteForceFullyValidRegions allValid3 ⟨⟨0, 0⟩, ⟨3, 3⟩⟩ 2147483648 := by
  decide

/-- C2 (amended, completeness of `GetAllFullyValidRegions`): for `patchRadius < 2^31` the
returned list equals the brute-force reference, and a square of side `2 * patchRadius + 1` whose
corner is a pixel of `searchRegion` is in the returned list if and only if every index it
contains lies inside `searchRegion` and is a pixel of the mask classified VALID. -/
theorem getAllFullyValidRegions_complete (mask : Mask) (searchRegion : ImageRegion)
    (patchRadius : Nat) (hr : patchRadius < 2 ^ 31) :
    GetAllFullyValidRegions mask searchRegion patchRadius =
        bruteForceFullyValidRegions mask searchRegion patchRadius ∧
      ∀ c : Index, searchRegion.IsInside c = true →
        ((⟨c, ⟨2 * patchRadius + 1, 2 * patchRadius + 1⟩⟩ : ImageRegion) ∈
            GetAllFullyValidRegions mask searchRegion patchRadius ↔
          (∀ p, (⟨c, ⟨2 * patchRadius + 1, 2 * patchRadius + 1⟩⟩ : ImageRegion).IsInside p = true →
            searchRegion.IsInside p = true) ∧
          (∀ p, (⟨c, ⟨2 * patchRadius + 1, 2 * patchRadius + 1⟩⟩ : ImageRegion).IsInside p = true →
            mask.largestPossibleRegion.IsInside p = true ∧
              mask.pixel p = PixelClass.VALID)) := by
  refine ⟨getAllFullyValidRegions_eq_bruteForce mask searchRegion patchRadius hr, ?_⟩
  intro c hc
  have h0 : 0 < (⟨c, ⟨2 * patchRadius + 1, 2 * patchRadius + 1⟩⟩ : ImageRegion).size.s0 := by
    simp
  have h1 : 0 < (⟨c, ⟨2 * patchRadius + 1, 2 * patchRadius + 1⟩⟩ : ImageRegion).size.s1 := by
    simp
  rw [mem_getAllFullyValidRegions, ImageRegion.isInsideRegion_iff _ _ h0 h1,
    Mask.isValidRegion_iff _ _ h0 h1]
  constructor
  · rintro ⟨_, h⟩
    exact h
  · intro h
    refine ⟨⟨hc, ?_⟩, h⟩
    rw [patchSize_of_lt patchRadius hr]

theorem getAllFullyValidRegions_complete_witness :
    1 < 2 ^ 31 ∧
      GetAllFullyValidRegions allValid4 ⟨⟨0, 0⟩, ⟨4, 4⟩⟩ 1 =
        [⟨⟨0, 0⟩, ⟨3, 3⟩⟩, ⟨⟨1, 0⟩, ⟨3, 3⟩⟩, ⟨⟨0, 1⟩, ⟨3, 3⟩⟩, ⟨⟨1, 1⟩, ⟨3, 3⟩⟩] ∧
      (GetAllFullyValidRegions allValid4 ⟨⟨0, 0⟩, ⟨4, 4⟩⟩ 1 =
          bruteForceFullyValidRegions allValid4 ⟨⟨0, 0⟩, ⟨4, 4⟩⟩ 1 ∧
        ∀ c : Index, (⟨⟨0, 0⟩, ⟨4, 4⟩⟩ : ImageRegion).IsInside c = true →
          ((⟨c, ⟨2 * 1 + 1, 2 * 1 + 1⟩⟩ : ImageRegion) ∈
              GetAllFullyValidRegions allValid4 ⟨⟨0, 0⟩, ⟨4, 4⟩⟩ 1 ↔
            (∀ p, (⟨c, ⟨2 * 1 + 1, 2 * 1 + 1⟩⟩ : ImageRegion).IsInside p = true →
              (⟨⟨0, 0⟩, ⟨4, 4⟩⟩ : ImageRegion).IsInside p = true) ∧
            (∀ p, (⟨c, ⟨2 * 1 + 1, 2 * 1 + 1⟩⟩ : ImageRegion).IsInside p = true →
              allValid4.largestPossibleRegion.IsInside p = true ∧
                allValid4.pixel p = PixelClass.VALID))) :=
  ⟨by decide, by decide,
    getAllFullyValidRegions_complete allValid4 ⟨⟨0, 0⟩, ⟨4, 4⟩⟩ 1 (by decide)⟩

/-- C3 (failing input): on the 3x3 all-VALID mask with `searchRegion` the single pixel `(0, 0)`
and `patchRadius = 1`, both overloads of `GetRandomValidPatchInRegion` return, for every random
sequence, the region `(0, 0)` of size 3x3: it is not null and fully valid, but it does not lie
inside `searchRegion`. -/
theorem getRandomValidPatchInRegion_leaves_searchRegion (fuel : Nat) (draws : Nat → Nat) :
    GetRandomValidPatchInRegion (fuel + 1) allValid3 ⟨⟨0, 0⟩, ⟨1, 1⟩⟩ 1 1 draws =
        some ⟨⟨0, 0⟩, ⟨3, 3⟩⟩ ∧
      GetRandomValidPatchInRegionFallback (fuel + 1) allValid3 ⟨⟨0, 0⟩, ⟨1, 1⟩⟩ 1 draws =
        some ⟨⟨0, 0⟩, ⟨3, 3⟩⟩ ∧
      (⟨⟨0, 0⟩, ⟨3, 3⟩⟩ : ImageRegion).IsNull = false ∧
      allValid3.IsValidRegion ⟨⟨0, 0⟩, ⟨3, 3⟩⟩ = true ∧
      (⟨⟨0, 0⟩, ⟨1, 1⟩⟩ : ImageRegion).IsInsideRegion ⟨⟨0, 0⟩, ⟨3, 3⟩⟩ = false := by
  have hc : ∀ k, randomCandidate ⟨⟨0, 0⟩, ⟨1, 1⟩⟩ 1 draws k = ⟨⟨0, 0⟩, ⟨3, 3⟩⟩ := by
    intro k
    simp [randomCandidate, RandomInt, patchSize]
  have ha : acceptsPatch allValid3 ⟨⟨0, 0⟩, ⟨3, 3⟩⟩ = true := by decide
  refine ⟨?_, ?_, by decide, by decide, by decide⟩
  · simp [GetRandomValidPatchInRegion, boundedLoop, hc, ha]
  · simp [GetRandomValidPatchInRegionFallback, fallbackLoop, hc, ha, maxRandomAttemps]

/-- C4 (failing input): on the 3x3 all-VALID mask with `searchRegion` the single pixel `(0, 0)`
and `patchRadius = 1`, `GetAllFullyValidRegions` returns the empty list, yet the fallback
overload of `GetRandomValidPatchInRegion` returns, for every random sequence, the region
`(0, 0)` of size 3x3, which is not the null region. -/
theorem fallback_not_null_on_empty_enumeration (fuel : Nat) (draws : Nat → Nat) :
    GetAllFullyValidRegions allValid3 ⟨⟨0, 0⟩, ⟨1, 1⟩⟩ 1 = [] ∧
      GetRandomValidPatchInRegionFallback (fuel + 1) allValid3 ⟨⟨0, 0⟩, ⟨1, 1⟩⟩ 1 draws =
        some ⟨⟨0, 0⟩, ⟨3, 3⟩⟩ ∧
      (⟨⟨0, 0⟩, ⟨3, 3⟩⟩ : ImageRegion).IsNull = false := by
  have hc : ∀ k, randomCandidate ⟨⟨0, 0⟩, ⟨1, 1⟩⟩ 1 draws k = ⟨⟨0, 0⟩, ⟨3, 3⟩⟩ := by
    intro k
    simp [randomCandidate, RandomInt, patchSize]
  have ha : acceptsPatch allValid3 ⟨⟨0, 0⟩, ⟨3, 3⟩⟩ = true := by decide
  refine ⟨by decide, ?_, by decide⟩
  simp [GetRandomValidPatchInRegionFallback, fallbackLoop, hc, ha, maxRandomAttemps]

theorem boundedLoop_eq (mask : Mask) (sr : ImageRegion) (r n : Nat) (draws : Nat → Nat)
    (hn : n + 1 < 2 ^ 32) :
    ∀ (fuel k : Nat), k ≤ n → n < k + fuel →
      boundedLoop mask sr r n draws fuel k k =
        some ((((List.range' k (n - k)).find? fun j =>
          acceptsPatch mask (randomCandidate sr r draws j)).map
            (randomCandidate sr r draws)).getD ⟨(randomCandidate sr r draws n).index, ⟨0, 0⟩⟩) := by
  intro fuel
  induction fuel with
  | zero => intro k h1 h2; omega
  | succ fuel ih =>
    intro k h1 h2
    rw [boundedLoop]
    have hwrap : (k + 1) % 2 ^ 32 = k + 1 := by omega
    simp only [hwrap]
    by_cases hk : k + 1 > n
    · have hkn : k = n := by omega
      subst hkn
      simp
    · have hlen : n - k = (n - (k + 1)) + 1 := by omega
      rw [hlen, List.range'_succ, List.find?_cons]
      simp only [hk, if_false]
      by_cases ha : acceptsPatch mask (randomCandidate sr r draws k) = true
      · simp [ha]
      · have ha2 : acceptsPatch mask (randomCandidate sr r draws k) = false := by
          simpa using ha
        simp only [ha2]
        rw [ih (k + 1) (by omega) (by omega)]
        simp

theorem boundedLoop_never_bails (mask : Mask) (sr : ImageRegion) (r : Nat) (draws : Nat → Nat)
    (hrej : ∀ k, acceptsPatch mask (randomCandidate sr r draws k) = false) :
    ∀ (fuel pass c : Nat), boundedLoop mask sr r 4294967295 draws fuel pass c = none := by
  intro fuel
  induction fuel with
  | zero => intro pass c; rfl
  | succ fuel ih =>
    intro pass c
    rw [boundedLoop]
    have hle : ¬ (c + 1) % 2 ^ 32 > 4294967295 := by omega
    simp only [hle, if_false, hrej pass]
    exact ih _ _

/-- C9 (counterexample): with `maxNumberOfAttempts = 2^32 - 1` the 32-bit counter
`numberOfAttempts` can never exceed the bound, so the bail-out never fires: on the 3x3 all-HOLE
mask, where no candidate is accepted, the call has not returned after `2^32 + 1` passes (by
`boundedLoop_never_bails`, nor after any other number of passes). -/
theorem getRandomValidPatchInRegion_never_bails :
    acceptsPatch allHole3 ⟨⟨0, 0⟩, ⟨3, 3⟩⟩ = false ∧
      GetRandomValidPatchInRegion 4294967297 allHole3 ⟨⟨0, 0⟩, ⟨1, 1⟩⟩ 1 4294967295
        constantDraws = none := by
  have hrej : ∀ k : Nat,
      acceptsPatch allHole3 (randomCandidate ⟨⟨0, 0⟩, ⟨1, 1⟩⟩ 1 constantDraws k) = false := by
    intro k
    have hc : randomCandidate ⟨⟨0, 0⟩, ⟨1, 1⟩⟩ 1 constantDraws k = ⟨⟨0, 0⟩, ⟨3, 3⟩⟩ := by
      simp [randomCandidate, RandomInt, patchSize]
    rw [hc]
    decide
  exact ⟨by decide, boundedLoop_never_bails _ _ _ _ hrej _ _ _⟩

/-- C9 (amended; bounded overload, `maxNumberOfAttempts = n` with `n < 2^32 - 1`): with more
than `n` units of fuel the call returns; the result is the first of the candidates `0 .. n - 1`
that is inside the mask's full extent and fully valid, and when none of these `n` candidates is
accepted (in particular when `n = 0`) it is a region of size 0x0. Candidates beyond the first
`n` have no influence. -/
theorem getRandomValidPatchInRegion_bounded (fuel : Nat) (mask : Mask)
    (searchRegion : ImageRegion) (patchRadius n : Nat) (draws : Nat → Nat)
    (hn : n + 1 < 2 ^ 32) (hfuel : n < fuel) :
    GetRandomValidPatchInRegion fuel mask searchRegion patchRadius n draws =
      some ((((List.range n).find? fun j =>
        acceptsPatch mask (randomCandidate searchRegion patchRadius draws j)).map
          (randomCandidate searchRegion patchRadius draws)).getD
            ⟨(randomCandidate searchRegion patchRadius draws n).index, ⟨0, 0⟩⟩) := by
  rw [GetRandomValidPatchInRegion, boundedLoop_eq mask searchRegion patchRadius n draws hn fuel 0
    (Nat.zero_le n) (by omega), List.range_eq_range']
  simp

theorem getRandomValidPatchInRegion_bounded_witness :
    3 + 1 < 2 ^ 32 ∧ 3 < 4 ∧
      GetRandomValidPatchInRegion 4 allValid4 ⟨⟨0, 0⟩, ⟨4, 4⟩⟩ 1 3 sampleDraws =
        some ⟨⟨1, 1⟩, ⟨3, 3⟩⟩ ∧
      GetRandomValidPatchInRegion 4 allValid4 ⟨⟨0, 0⟩, ⟨4, 4⟩⟩ 1 3 sampleDraws =
        some ((((List.range 3).find? fun j =>
          acceptsPatch allValid4 (randomCandidate ⟨⟨0, 0⟩, ⟨4, 4⟩⟩ 1 sampleDraws j)).map
            (randomCandidate ⟨⟨0, 0⟩, ⟨4, 4⟩⟩ 1 sampleDraws)).getD
              ⟨(randomCandidate ⟨⟨0, 0⟩, ⟨4, 4⟩⟩ 1 sampleDraws 3).index, ⟨0, 0⟩⟩) :=
  ⟨by decide, by decide, by decide,
    getRandomValidPatchInRegion_bounded 4 allValid4 ⟨⟨0, 0⟩, ⟨4, 4⟩⟩ 1 3 sampleDraws
      (by decide) (by decide)⟩

theorem randomInt_zero_toNat (raw len : Nat) :
    (RandomInt raw 0 ((len : Int) - 1)).toNat = raw % len := by
  have h : (0 : Int) + (raw : Int) % ((len : Int) - 1 - 0 + 1) = ((raw % len : Nat) : Int) := by
    rw [Int.natCast_mod]
    have e : (len : Int) - 1 - 0 + 1 = (len : Int) := by omega
    rw [e, Int.zero_add]
  rw [RandomInt, h, Int.toNat_ofNat]

theorem fallbackLoop_of_rejected (mask : Mask) (sr : ImageRegion) (r : Nat) (draws : Nat → Nat) :
    ∀ (fuel k : Nat), k ≤ 10 → 10 < k + fuel →
      (∀ j, k ≤ j → j < 10 → acceptsPatch mask (randomCandidate sr r draws j) = false) →
      fallbackLoop mask sr r draws fuel k =
        if (GetAllFullyValidRegions mask sr r).length = 0 then
          some ⟨(randomCandidate sr r draws 10).index, ⟨0, 0⟩⟩
        else
          (GetAllFullyValidRegions mask sr r)[draws 22 %
            (GetAllFullyValidRegions mask sr r).length]? := by
  intro fuel
  induction fuel with
  | zero => intro k h1 h2; omega
  | succ fuel ih =>
    intro k h1 h2 hrej
    rw [fallbackLoop]
    by_cases hk : k + 1 > maxRandomAttemps
    · have hk10 : k = 10 := by
        simp only [maxRandomAttemps] at hk
        omega
      subst hk10
      simp only [hk, if_true, randomInt_zero_toNat]
    · have hlt : k < 10 := by
        simp only [maxRandomAttemps] at hk
        omega
      simp only [hk, if_false, hrej k (Nat.le_refl k) hlt]
      exact ih (k + 1) (by omega) (by omega) (fun j hj hj10 => hrej j (by omega) hj10)

/-- C10 (fallback overload): when none of the first 10 random candidates is accepted, the call
returns (with more than 10 units of fuel); the result is a region of size 0x0 if
`GetAllFullyValidRegions(mask, searchRegion, patchRadius)` is empty, and otherwise it is the
element of that list at the position drawn by the next random value, a position of
`[0, length - 1]`. -/
theorem getRandomValidPatchInRegion_fallback (fuel : Nat) (mask : Mask)
    (searchRegion : ImageRegion) (patchRadius : Nat) (draws : Nat → Nat) (hfuel : 10 < fuel)
    (hrej : ∀ j, j < 10 →
      acceptsPatch mask (randomCandidate searchRegion patchRadius draws j) = false) :
    (GetAllFullyValidRegions mask searchRegion patchRadius = [] →
        GetRandomValidPatchInRegionFallback fuel mask searchRegion patchRadius draws =
          some ⟨(randomCandidate searchRegion patchRadius draws 10).index, ⟨0, 0⟩⟩) ∧
      (GetAllFullyValidRegions mask searchRegion patchRadius ≠ [] →
        ∃ R, R ∈ GetAllFullyValidRegions mask searchRegion patchRadius ∧
          draws 22 % (GetAllFullyValidRegions mask searchRegion patchRadius).length <
            (GetAllFullyValidRegions mask searchRegion patchRadius).length ∧
          (GetAllFullyValidRegions mask searchRegion patchRadius)[draws 22 %
            (GetAllFullyValidRegions mask searchRegion patchRadius).length]? = some R ∧
          GetRandomValidPatchInRegionFallback fuel mask searchRegion patchRadius draws =
            some R) := by
  have hloop := fallbackLoop_of_rejected mask searchRegion patchRadius draws fuel 0
    (by omega) (by omega) (fun j _ hj => hrej j hj)
  constructor
  · intro hnil
    rw [GetRandomValidPatchInRegionFallback, hloop, hnil]
    simp
  · intro hne
    have hpos : 0 < (GetAllFullyValidRegions mask searchRegion patchRadius).length :=
      List.length_pos.2 hne
    have hlt := Nat.mod_lt (draws 22) hpos
    refine ⟨(GetAllFullyValidRegions mask searchRegion patchRadius)[draws 22 %
      (GetAllFullyValidRegions mask searchRegion patchRadius).length], List.getElem_mem _, hlt,
      List.getElem?_eq_getElem hlt, ?_⟩
    rw [GetRandomValidPatchInRegionFallback, hloop, if_neg (by omega),
      List.getElem?_eq_getElem hlt]

theorem getRandomValidPatchInRegion_fallback_witness :
    10 < 11 ∧
      (∀ j, j < 10 →
        acceptsPatch allValid4 (randomCandidate ⟨⟨0, 0⟩, ⟨4, 4⟩⟩ 1 constantDraws j) = false) ∧
      GetAllFullyValidRegions allValid4 ⟨⟨0, 0⟩, ⟨4, 4⟩⟩ 1 ≠ [] ∧
      GetRandomValidPatchInRegionFallback 11 allValid4 ⟨⟨0, 0⟩, ⟨4, 4⟩⟩ 1 constantDraws =
        some ⟨⟨1, 1⟩, ⟨3, 3⟩⟩ ∧
      ((GetAllFullyValidRegions allValid4 ⟨⟨0, 0⟩, ⟨4, 4⟩⟩ 1 = [] →
        GetRandomValidPatchInRegionFallback 11 allValid4 ⟨⟨0, 0⟩, ⟨4, 4⟩⟩ 1 constantDraws =
          some ⟨(randomCandidate ⟨⟨0, 0⟩, ⟨4, 4⟩⟩ 1 constantDraws 10).index, ⟨0, 0⟩⟩) ∧
      (GetAllFullyValidRegions allValid4 ⟨⟨0, 0⟩, ⟨4, 4⟩⟩ 1 ≠ [] →
        ∃ R, R ∈ GetAllFullyValidRegions allValid4 ⟨⟨0, 0⟩, ⟨4, 4⟩⟩ 1 ∧
          constantDraws 22 % (GetAllFullyValidRegions allValid4 ⟨⟨0, 0⟩, ⟨4, 4⟩⟩ 1).length <
            (GetAllFullyValidRegions allValid4 ⟨⟨0, 0⟩, ⟨4, 4⟩⟩ 1).length ∧
          (GetAllFullyValidRegions allValid4 ⟨⟨0, 0⟩, ⟨4, 4⟩⟩ 1)[constantDraws 22 %
            (GetAllFullyValidRegions allValid4 ⟨⟨0, 0⟩, ⟨4, 4⟩⟩ 1).length]? = some R ∧
          GetRandomValidPatchInRegionFallback 11 allValid4 ⟨⟨0, 0⟩, ⟨4, 4⟩⟩ 1 constantDraws =
            some R)) :=
  ⟨by decide, by decide, by decide, by decide,
    getRandomValidPatchInRegion_fallback 11 allValid4 ⟨⟨0, 0⟩, ⟨4, 4⟩⟩ 1 constantDraws
      (by decide) (by decide)⟩

/-! ### Hole bounding box -/

theorem holeBoxStep_min0 (mask : Mask) (acc : Index × Index) (c : Index) :
    (holeBoxStep mask acc c).1.i0 =
      if mask.IsHole c = true ∧ c.i0 < acc.1.i0 then c.i0 else acc.1.i0 := by
  unfold holeBoxStep
  by_cases hh : mask.IsHole c = true
  · by_cases a : c.i0 < acc.1.i0 <;> by_cases b : c.i1 < acc.1.i1 <;> simp [hh, a, b]
  · simp [hh]

theorem holeBoxStep_min1 (mask : Mask) (acc : Index × Index) (c : Index) :
    (holeBoxStep mask acc c).1.i1 =
      if mask.IsHole c = true ∧ c.i1 < acc.1.i1 then c.i1 else acc.1.i1 := by
  unfold holeBoxStep
  by_cases hh : mask.IsHole c = true
  · by_cases a : c.i0 < acc.1.i0 <;> by_cases b : c.i1 < acc.1.i1 <;> simp [hh, a, b]
  · simp [hh]

theorem holeBoxStep_max0 (mask : Mask) (acc : Index × Index) (c : Index) :
    (holeBoxStep mask acc c).2.i0 =
      if mask.IsHole c = true ∧ acc.2.i0 < c.i0 then c.i0 else acc.2.i0 := by
  unfold holeBoxStep
  by_cases hh : mask.IsHole c = true
  · by_cases a : acc.2.i0 < c.i0 <;> by_cases b : acc.2.i1 < c.i1 <;> simp [hh, a, b]
  · simp [hh]

theorem holeBoxStep_max1 (mask : Mask) (acc : Index × Index) (c : Index) :
    (holeBoxStep mask acc c).2.i1 =
      if mask.IsHole c = true ∧ acc.2.i1 < c.i1 then c.i1 else acc.2.i1 := by
  unfold holeBoxStep
  by_cases hh : mask.IsHole c = true
  · by_cases a : acc.2.i0 < c.i0 <;> by_cases b : acc.2.i1 < c.i1 <;> simp [hh, a, b]
  · simp [hh]

/-- A running minimum of `key` over the elements satisfying `sel`, started at `v`: it is below
`v`, below the key of every selected element, and either still `v` or attained. -/
theorem foldl_min_tracker (key : Index → Int) (sel : Index → Bool) (l : List Index) :
    ∀ v : Int,
      l.foldl (fun v c => if sel c = true ∧ key c < v then key c else v) v ≤ v ∧
      (∀ p ∈ l, sel p = true →
        l.foldl (fun v c => if sel c = true ∧ key c < v then key c else v) v ≤ key p) ∧
      (l.foldl (fun v c => if sel c = true ∧ key c < v then key c else v) v = v ∨
        ∃ p ∈ l, sel p = true ∧
          key p = l.foldl (fun v c => if sel c = true ∧ key c < v then key c else v) v) := by
  induction l with
  | nil => intro v; simp
  | cons c cs ih =>
    intro v
    rw [List.foldl_cons]
    obtain ⟨h1, h2, h3⟩ := ih (if sel c = true ∧ key c < v then key c else v)
    by_cases hc : sel c = true ∧ key c < v
    · rw [if_pos hc] at h1 h2 h3 ⊢
      refine ⟨by omega, ?_, ?_⟩
      · intro p hp hs
        rcases List.mem_cons.1 hp with rfl | hp
        · exact h1
        · exact h2 p hp hs
      · right
        rcases h3 with h3 | ⟨p, hp, hs, hk⟩
        · exact ⟨c, List.mem_cons_self _ _, hc.1, h3.symm⟩
        · exact ⟨p, List.mem_cons_of_mem _ hp, hs, hk⟩
    · rw [if_neg hc] at h1 h2 h3 ⊢
      refine ⟨h1, ?_, ?_⟩
      · intro p hp hs
        rcases List.mem_cons.1 hp with rfl | hp
        · have : ¬ key p < v := fun h => hc ⟨hs, h⟩
          omega
        · exact h2 p hp hs
      · rcases h3 with h3 | ⟨p, hp, hs, hk⟩
        · exact Or.inl h3
        · exact Or.inr ⟨p, List.mem_cons_of_mem _ hp, hs, hk⟩

/-- A running maximum of `key` over the elements satisfying `sel`, started at `v`. -/
theorem foldl_max_tracker (key : Index → Int) (sel : Index → Bool) (l : List Index) :
    ∀ v : Int,
      v ≤ l.foldl (fun v c => if sel c = true ∧ v < key c then key c else v) v ∧
      (∀ p ∈ l, sel p = true →
        key p ≤ l.foldl (fun v c => if sel c = true ∧ v < key c then key c else v) v) ∧
      (l.foldl (fun v c => if sel c = true ∧ v < key c then key c else v) v = v ∨
        ∃ p ∈ l, sel p = true ∧
          key p = l.foldl (fun v c => if sel c = true ∧ v < key c then key c else v) v) := by
  induction l with
  | nil => intro v; simp
  | cons c cs ih =>
    intro v
    rw [List.foldl_cons]
    obtain ⟨h1, h2, h3⟩ := ih (if sel c = true ∧ v < key c then key c else v)
    by_cases hc : sel c = true ∧ v < key c
    · rw [if_pos hc] at h1 h2 h3 ⊢
      refine ⟨by omega, ?_, ?_⟩
      · intro p hp hs
        rcases List.mem_cons.1 hp with rfl | hp
        · exact h1
        · exact h2 p hp hs
      · right
        rcases h3 with h3 | ⟨p, hp, hs, hk⟩
        · exact ⟨c, List.mem_cons_self _ _, hc.1, h3.symm⟩
        · exact ⟨p, List.mem_cons_of_mem _ hp, hs, hk⟩
    · rw [if_neg hc] at h1 h2 h3 ⊢
      refine ⟨h1, ?_, ?_⟩
      · intro p hp hs
        rcases List.mem_cons.1 hp with rfl | hp
        · have : ¬ v < key p := fun h => hc ⟨hs, h⟩
          omega
        · exact h2 p hp hs
      · rcases h3 with h3 | ⟨p, hp, hs, hk⟩
        · exact Or.inl h3
        · exact Or.inr ⟨p, List.mem_cons_of_mem _ hp, hs, hk⟩

theorem holeBox_foldl_components (mask : Mask) (l : List Index) :
    ∀ acc : Index × Index,
      (l.foldl (holeBoxStep mask) acc).1.i0 =
          l.foldl (fun v c => if mask.IsHole c = true ∧ c.i0 < v then c.i0 else v) acc.1.i0 ∧
      (l.foldl (holeBoxStep mask) acc).1.i1 =
          l.foldl (fun v c => if mask.IsHole c = true ∧ c.i1 < v then c.i1 else v) acc.1.i1 ∧
      (l.foldl (holeBoxStep mask) acc).2.i0 =
          l.foldl (fun v c => if mask.IsHole c = true ∧ v < c.i0 then c.i0 else v) acc.2.i0 ∧
      (l.foldl (holeBoxStep mask) acc).2.i1 =
          l.foldl (fun v c => if mask.IsHole c = true ∧ v < c.i1 then c.i1 else v) acc.2.i1 := by
  induction l with
  | nil => intro acc; simp
  | cons c cs ih =>
    intro acc
    simp only [List.foldl_cons]
    obtain ⟨h1, h2, h3, h4⟩ := ih (holeBoxStep mask acc c)
    rw [h1, h2, h3, h4, holeBoxStep_min0, holeBoxStep_min1, holeBoxStep_max0, holeBoxStep_max1]
    exact ⟨rfl, rfl, rfl, rfl⟩

theorem toSizeValue_of_range (z : Int) (h0 : 0 ≤ z) (h1 : z < 2 ^ 64) :
    ((toSizeValue z : Nat) : Int) = z := by
  rw [toSizeValue, Int.emod_eq_of_lt h0 h1, Int.toNat_of_nonneg h0]

/-- For a mask whose full extent starts at `(0, 0)` and contains a HOLE pixel,
`ComputeHoleBoundingBox` returns the tight inclusive bounding box of the HOLE pixels: the box
contains every HOLE pixel of the mask and each of its four sides touches one. -/
theorem computeHoleBoundingBox_tight_of_origin (mask : Mask)
    (horigin : mask.largestPossibleRegion.index = ⟨0, 0⟩)
    (hs0 : mask.largestPossibleRegion.size.s0 < 2 ^ 64)
    (hs1 : mask.largestPossibleRegion.size.s1 < 2 ^ 64)
    (q : Index) (hq : mask.largestPossibleRegion.IsInside q = true)
    (hqh : mask.IsHole q = true) :
    (∀ p, mask.largestPossibleRegion.IsInside p = true → mask.IsHole p = true →
        (ComputeHoleBoundingBox mask).IsInside p = true) ∧
      (∃ p, mask.largestPossibleRegion.IsInside p = true ∧ mask.IsHole p = true ∧
        p.i0 = (ComputeHoleBoundingBox mask).index.i0) ∧
      (∃ p, mask.largestPossibleRegion.IsInside p = true ∧ mask.IsHole p = true ∧
        p.i1 = (ComputeHoleBoundingBox mask).index.i1) ∧
      (∃ p, mask.largestPossibleRegion.IsInside p = true ∧ mask.IsHole p = true ∧
        p.i0 = (ComputeHoleBoundingBox mask).index.i0 +
          (ComputeHoleBoundingBox mask).size.s0 - 1) ∧
      (∃ p, mask.largestPossibleRegion.IsInside p = true ∧ mask.IsHole p = true ∧
        p.i1 = (ComputeHoleBoundingBox mask).index.i1 +
          (ComputeHoleBoundingBox mask).size.s1 - 1) := by
  have hmem := ImageRegion.mem_indices mask.largestPossibleRegion
  obtain ⟨e1, e2, e3, e4⟩ := holeBox_foldl_components mask mask.largestPossibleRegion.indices
    (⟨mask.largestPossibleRegion.size.s0, mask.largestPossibleRegion.size.s1⟩, ⟨0, 0⟩)
  obtain ⟨-, a2, a3⟩ := foldl_min_tracker (fun p => p.i0) mask.IsHole
    mask.largestPossibleRegion.indices mask.largestPossibleRegion.size.s0
  obtain ⟨-, b2, b3⟩ := foldl_min_tracker (fun p => p.i1) mask.IsHole
    mask.largestPossibleRegion.indices mask.largestPossibleRegion.size.s1
  obtain ⟨-, c2, c3⟩ := foldl_max_tracker (fun p => p.i0) mask.IsHole
    mask.largestPossibleRegion.indices 0
  obtain ⟨-, d2, d3⟩ := foldl_max_tracker (fun p => p.i1) mask.IsHole
    mask.largestPossibleRegion.indices 0
  simp only at e1 e2 e3 e4 a2 a3 b2 b3 c2 c3 d2 d3
  rw [← e1] at a2 a3
  rw [← e2] at b2 b3
  rw [← e3] at c2 c3
  rw [← e4] at d2 d3
  have hbox : ComputeHoleBoundingBox mask =
      ⟨(mask.largestPossibleRegion.indices.foldl (holeBoxStep mask)
        (⟨mask.largestPossibleRegion.size.s0, mask.largestPossibleRegion.size.s1⟩, ⟨0, 0⟩)).1,
       ⟨toSizeValue ((mask.largestPossibleRegion.indices.foldl (holeBoxStep mask)
          (⟨mask.largestPossibleRegion.size.s0, mask.largestPossibleRegion.size.s1⟩, ⟨0, 0⟩)).2.i0 -
          (mask.largestPossibleRegion.indices.foldl (holeBoxStep mask)
          (⟨mask.largestPossibleRegion.size.s0, mask.largestPossibleRegion.size.s1⟩, ⟨0, 0⟩)).1.i0
            + 1),
        toSizeValue ((mask.largestPossibleRegion.indices.foldl (holeBoxStep mask)
          (⟨mask.largestPossibleRegion.size.s0, mask.largestPossibleRegion.size.s1⟩, ⟨0, 0⟩)).2.i1 -
          (mask.largestPossibleRegion.indices.foldl (holeBoxStep mask)
          (⟨mask.largestPossibleRegion.size.s0, mask.largestPossibleRegion.size.s1⟩, ⟨0, 0⟩)).1.i1
            + 1)⟩⟩ := rfl
  generalize mask.largestPossibleRegion.indices.foldl (holeBoxStep mask)
    (⟨mask.largestPossibleRegion.size.s0, mask.largestPossibleRegion.size.s1⟩, ⟨0, 0⟩) = F
    at a2 a3 b2 b3 c2 c3 d2 d3 hbox
  -- bounds of the pixels of the extent
  have hext : ∀ p, mask.largestPossibleRegion.IsInside p = true →
      (0 ≤ p.i0 ∧ p.i0 < mask.largestPossibleRegion.size.s0) ∧
        (0 ≤ p.i1 ∧ p.i1 < mask.largestPossibleRegion.size.s1) := by
    intro p hp
    have := (ImageRegion.isInside_iff _ _).1 hp
    rw [horigin] at this
    simpa using this
  have hqm := (hmem q).2 hq
  have hqb := hext q hq
  have A := a2 q hqm hqh
  have B := b2 q hqm hqh
  have C := c2 q hqm hqh
  have D := d2 q hqm hqh
  -- the four extrema are attained
  have ha : ∃ p, mask.largestPossibleRegion.IsInside p = true ∧ mask.IsHole p = true ∧
      p.i0 = F.1.i0 := by
    rcases a3 with h | ⟨p, hp, hh, hk⟩
    · omega
    · exact ⟨p, (hmem p).1 hp, hh, hk⟩
  have hb : ∃ p, mask.largestPossibleRegion.IsInside p = true ∧ mask.IsHole p = true ∧
      p.i1 = F.1.i1 := by
    rcases b3 with h | ⟨p, hp, hh, hk⟩
    · omega
    · exact ⟨p, (hmem p).1 hp, hh, hk⟩
  have hc : ∃ p, mask.largestPossibleRegion.IsInside p = true ∧ mask.IsHole p = true ∧
      p.i0 = F.2.i0 := by
    rcases c3 with h | ⟨p, hp, hh, hk⟩
    · exact ⟨q, hq, hqh, by omega⟩
    · exact ⟨p, (hmem p).1 hp, hh, hk⟩
  have hd : ∃ p, mask.largestPossibleRegion.IsInside p = true ∧ mask.IsHole p = true ∧
      p.i1 = F.2.i1 := by
    rcases d3 with h | ⟨p, hp, hh, hk⟩
    · exact ⟨q, hq, hqh, by omega⟩
    · exact ⟨p, (hmem p).1 hp, hh, hk⟩
  -- the stored sizes are the exact differences
  have hw0 : ((toSizeValue (F.2.i0 - F.1.i0 + 1) : Nat) : Int) = F.2.i0 - F.1.i0 + 1 := by
    obtain ⟨p, hp, -, hk⟩ := hc
    have := hext p hp
    obtain ⟨p2, hp2, -, hk2⟩ := ha
    have := hext p2 hp2
    exact toSizeValue_of_range _ (by omega) (by omega)
  have hw1 : ((toSizeValue (F.2.i1 - F.1.i1 + 1) : Nat) : Int) = F.2.i1 - F.1.i1 + 1 := by
    obtain ⟨p, hp, -, hk⟩ := hd
    have := hext p hp
    obtain ⟨p2, hp2, -, hk2⟩ := hb
    have := hext p2 hp2
    exact toSizeValue_of_range _ (by omega) (by omega)
  rw [hbox]
  simp only [hw0, hw1]
  refine ⟨?_, ha, hb, ?_, ?_⟩
  · intro p hp hh
    have hpm := (hmem p).2 hp
    have := a2 p hpm hh
    have := b2 p hpm hh
    have := c2 p hpm hh
    have := d2 p hpm hh
    rw [ImageRegion.isInside_iff]
    simp only [hw0, hw1]
    omega
  · obtain ⟨p, hp, hh, hk⟩ := hc
    exact ⟨p, hp, hh, by omega⟩
  · obtain ⟨p, hp, hh, hk⟩ := hd
    exact ⟨p, hp, hh, by omega⟩

/-- The mask of `TestComputeHoleBoundingBox` (100x100, all VALID except the pixels with both
components in `51 .. 69`) gives corner `(51, 51)` and size `(19, 19)`. -/
theorem computeHoleBoundingBox_testMask :
    ComputeHoleBoundingBox testMask = ⟨⟨51, 51⟩, ⟨19, 19⟩⟩ := by
  have hole_iff : ∀ p : Index, testMask.IsHole p = true ↔
      (p.i0 > 50 ∧ p.i0 < 70 ∧ p.i1 > 50 ∧ p.i1 < 70) := by
    intro p
    simp only [Mask.IsHole, testMask, decide_eq_true_eq]
    split_ifs with h
    · simp [h]
    · simp [h]
  obtain ⟨h1, ⟨p0, -, hp0, e0⟩, ⟨p1, -, hp1, e1⟩, ⟨p2, -, hp2, e2⟩, ⟨p3, -, hp3, e3⟩⟩ :=
    computeHoleBoundingBox_tight_of_origin testMask rfl (by decide) (by decide) ⟨51, 51⟩
      (by decide) (by decide)
  have k1 := (ImageRegion.isInside_iff _ _).1 (h1 ⟨51, 51⟩ (by decide) (by decide))
  have k2 := (ImageRegion.isInside_iff _ _).1 (h1 ⟨69, 69⟩ (by decide) (by decide))
  rw [hole_iff] at hp0 hp1 hp2 hp3
  generalize ComputeHoleBoundingBox testMask = box at *
  obtain ⟨⟨a, b⟩, ⟨w, h⟩⟩ := box
  simp only at e0 e1 e2 e3 k1 k2
  simp only [ImageRegion.mk.injEq, Index.mk.injEq, Size.mk.injEq]
  omega

/-- C5 (failing input): on the 5x5 mask whose extent starts at `(10, 10)` and whose only HOLE
pixel is `(12, 12)`, `ComputeHoleBoundingBox` returns corner `(5, 5)` with size `(8, 8)`, not
the tight box of corner `(12, 12)` and size `(1, 1)`; the returned corner is not even a pixel of
the mask. -/
theorem computeHoleBoundingBox_shifted_extent :
    shiftedMask.largestPossibleRegion.IsInside ⟨12, 12⟩ = true ∧
      shiftedMask.IsHole ⟨12, 12⟩ = true ∧
      (∀ p, shiftedMask.IsHole p = true → p = ⟨12, 12⟩) ∧
      ComputeHoleBoundingBox shiftedMask = ⟨⟨5, 5⟩, ⟨8, 8⟩⟩ ∧
      ComputeHoleBoundingBox shiftedMask ≠ ⟨⟨12, 12⟩, ⟨1, 1⟩⟩ ∧
      shiftedMask.largestPossibleRegion.IsInside (ComputeHoleBoundingBox shiftedMask).index =
        false := by
  refine ⟨by decide, by decide, ?_, by decide, by decide, by decide⟩
  intro p hp
  simp only [Mask.IsHole, shiftedMask, decide_eq_true_eq] at hp
  split_ifs at hp with h
  obtain ⟨a, b⟩ := p
  simp only at h
  simp [h.1, h.2]

/-! ### Directional hole traversal -/

theorem pixelAlong_zero (q : Index) (d : Direction) : pixelAlong q d 0 = q := by
  simp [pixelAlong]

theorem pixelAlong_one (q : Index) (d : Direction) :
    pixelAlong q d 1 = GetNextPixelAlongVector q d := by
  simp [pixelAlong, GetNextPixelAlongVector]

theorem pixelAlong_next (q : Index) (d : Direction) (k : Nat) :
    pixelAlong (GetNextPixelAlongVector q d) d k = pixelAlong q d (k + 1) := by
  simp only [pixelAlong, GetNextPixelAlongVector, Index.mk.injEq]
  constructor <;> push_cast <;> ring

/-- The trace loop started on a run of `n` HOLE pixels whose successors are in bounds, followed
by a pixel that is not HOLE, returns that pixel. -/
theorem traceAcrossHole_exit (mask : Mask) (d : Direction) :
    ∀ (n fuel : Nat) (start : Index),
      (∀ k, k < n → mask.IsHole (pixelAlong start d k) = true ∧
        mask.largestPossibleRegion.IsInside (pixelAlong start d (k + 1)) = true) →
      mask.IsHole (pixelAlong start d n) = false →
      n < fuel →
      traceAcrossHole mask d fuel start = some (TraversalResult.ok (pixelAlong start d n)) := by
  intro n
  induction n with
  | zero =>
    intro fuel start _ hexit hfuel
    obtain ⟨f, rfl⟩ : ∃ f, fuel = f + 1 := ⟨fuel - 1, by omega⟩
    rw [pixelAlong_zero] at hexit ⊢
    simp [traceAcrossHole, hexit]
  | succ n ih =>
    intro fuel start hrun hexit hfuel
    obtain ⟨f, rfl⟩ : ∃ f, fuel = f + 1 := ⟨fuel - 1, by omega⟩
    have h0 := hrun 0 (by omega)
    rw [pixelAlong_zero, pixelAlong_one] at h0
    rw [traceAcrossHole]
    simp only [h0.1, h0.2, if_true, Bool.not_true, Bool.false_eq_true, if_false]
    rw [ih f (GetNextPixelAlongVector start d) ?_ ?_ (by omega), pixelAlong_next]
    · intro k hk
      rw [pixelAlong_next, pixelAlong_next]
      exact hrun (k + 1) (by omega)
    · rw [pixelAlong_next]
      exact hexit

/-- The trace loop started on a run of `n + 1` HOLE pixels, the first `n` of which have their
successor in bounds while the successor of the last one is out of bounds, throws. -/
theorem traceAcrossHole_edge (mask : Mask) (d : Direction) :
    ∀ (n fuel : Nat) (start : Index),
      (∀ k, k ≤ n → mask.IsHole (pixelAlong start d k) = true) →
      (∀ k, k < n → mask.largestPossibleRegion.IsInside (pixelAlong start d (k + 1)) = true) →
      mask.largestPossibleRegion.IsInside (pixelAlong start d (n + 1)) = false →
      n < fuel →
      traceAcrossHole mask d fuel start =
        some (TraversalResult.error TraversalError.traversalOutOfBounds) := by
  intro n
  induction n with
  | zero =>
    intro fuel start hrun _ hedge hfuel
    obtain ⟨f, rfl⟩ : ∃ f, fuel = f + 1 := ⟨fuel - 1, by omega⟩
    have h0 := hrun 0 (by omega)
    rw [pixelAlong_zero] at h0
    rw [pixelAlong_one] at hedge
    simp [traceAcrossHole, h0, hedge]
  | succ n ih =>
    intro fuel start hrun hin hedge hfuel
    obtain ⟨f, rfl⟩ : ∃ f, fuel = f + 1 := ⟨fuel - 1, by omega⟩
    have h0 := hrun 0 (by omega)
    have h1 := hin 0 (by omega)
    rw [pixelAlong_zero] at h0
    rw [pixelAlong_one] at h1
    rw [traceAcrossHole]
    simp only [h0, h1, if_true, Bool.not_true, Bool.false_eq_true, if_false]
    apply ih f (GetNextPixelAlongVector start d) ?_ ?_ ?_ (by omega)
    · intro k hk
      rw [pixelAlong_next]
      exact hrun (k + 1) (by omega)
    · intro k hk
      rw [pixelAlong_next]
      exact hin (k + 1) (by omega)
    · rw [pixelAlong_next]
      exact hedge

theorem traceAcrossHole_ne_invalidStart (mask : Mask) (d : Direction) :
    ∀ (fuel : Nat) (start : Index),
      traceAcrossHole mask d fuel start ≠
        some (TraversalResult.error TraversalError.invalidStart) := by
  intro fuel
  induction fuel with
  | zero => intro start; simp [traceAcrossHole]
  | succ f ih =>
    intro start
    rw [traceAcrossHole]
    by_cases hh : mask.IsHole start = true
    · by_cases hi : mask.largestPossibleRegion.IsInside (GetNextPixelAlongVector start d) = true
      · simp only [hh, hi, if_true, Bool.not_true, Bool.false_eq_true, if_false]
        exact ih _
      · simp [hh, hi]
    · simp [hh]

theorem findPixelAcrossHole_eq_trace (fuel : Nat) (q : Index) (d : Direction) (mask : Mask)
    (hq : mask.IsValid q = true) :
    FindPixelAcrossHole fuel q d mask =
      traceAcrossHole mask (chosenDirection q d mask) fuel
        (GetNextPixelAlongVector q (chosenDirection q d mask)) := by
  unfold FindPixelAcrossHole chosenDirection
  simp only [hq, Bool.not_true, Bool.false_eq_true, if_false]
  split_ifs <;> rfl

/-- C6: for a VALID `queryPixel` `q` and a direction with step offset `s`, if the pixels
`q + 1*s .. q + n*s` (`n ≥ 1`) are all in bounds and HOLE and `q + (n+1)*s` is in bounds and not
HOLE, then `FindPixelAcrossHole` returns `q + (n+1)*s` (with more than `n` units of fuel). The
witness is the specification's corridor: from the pixel of row 5, column 9 with direction
`(1, 0)` the call returns the pixel of row 5, column 20. -/
theorem findPixelAcrossHole_far_edge (fuel : Nat) (mask : Mask) (q : Index) (d : Direction)
    (n : Nat) (hq : mask.IsValid q = true) (hn : 1 ≤ n)
    (hrun : ∀ k, k < n → mask.largestPossibleRegion.IsInside (pixelAlong q d (k + 1)) = true ∧
      mask.IsHole (pixelAlong q d (k + 1)) = true)
    (hexit : mask.largestPossibleRegion.IsInside (pixelAlong q d (n + 1)) = true ∧
      mask.IsHole (pixelAlong q d (n + 1)) = false)
    (hfuel : n < fuel) :
    FindPixelAcrossHole fuel q d mask = some (TraversalResult.ok (pixelAlong q d (n + 1))) := by
  have h1 := hrun 0 (by omega)
  rw [pixelAlong_one] at h1
  have hdir : chosenDirection q d mask = d := by
    simp [chosenDirection, h1.1, h1.2]
  rw [findPixelAcrossHole_eq_trace fuel q d mask hq, hdir,
    traceAcrossHole_exit mask d n fuel (GetNextPixelAlongVector q d) ?_ ?_ hfuel, pixelAlong_next]
  · intro k hk
    rw [pixelAlong_next, pixelAlong_next]
    refine ⟨(hrun k hk).2, ?_⟩
    by_cases hlast : k + 1 < n
    · exact (hrun (k + 1) hlast).1
    · have : k + 1 = n := by omega
      rw [this]
      exact hexit.1
  · rw [pixelAlong_next]
    exact hexit.2

theorem findPixelAcrossHole_far_edge_witness :
    specCorridorMask.IsValid ⟨9, 5⟩ = true ∧ 1 ≤ 10 ∧
      (∀ k, k < 10 →
        specCorridorMask.largestPossibleRegion.IsInside (pixelAlong ⟨9, 5⟩ ⟨1, 0⟩ (k + 1)) = true ∧
          specCorridorMask.IsHole (pixelAlong ⟨9, 5⟩ ⟨1, 0⟩ (k + 1)) = true) ∧
      (specCorridorMask.largestPossibleRegion.IsInside (pixelAlong ⟨9, 5⟩ ⟨1, 0⟩ (10 + 1)) = true ∧
        specCorridorMask.IsHole (pixelAlong ⟨9, 5⟩ ⟨1, 0⟩ (10 + 1)) = false) ∧
      10 < 11 ∧
      pixelAlong ⟨9, 5⟩ ⟨1, 0⟩ (10 + 1) = ⟨20, 5⟩ ∧
      FindPixelAcrossHole 11 ⟨9, 5⟩ ⟨1, 0⟩ specCorridorMask =
        some (TraversalResult.ok (pixelAlong ⟨9, 5⟩ ⟨1, 0⟩ (10 + 1))) :=
  ⟨by decide, by decide, by decide, by decide, by decide, by decide,
    findPixelAcrossHole_far_edge 11 specCorridorMask ⟨9, 5⟩ ⟨1, 0⟩ 10 (by decide) (by decide)
      (by decide) (by decide) (by decide)⟩

/-- C7: `FindPixelAcrossHole` fails with the invalid-start error exactly when `queryPixel` is
not classified VALID in the mask, whatever the direction and the fuel; in that case no index is
returned, and the error is never raised for a VALID `queryPixel`. -/
theorem findPixelAcrossHole_invalidStart_iff (fuel : Nat) (mask : Mask) (q : Index)
    (d : Direction) :
    FindPixelAcrossHole fuel q d mask =
        some (TraversalResult.error TraversalError.invalidStart) ↔
      mask.IsValid q = false := by
  constructor
  · intro h
    by_contra hv
    have hq : mask.IsValid q = true := by simpa using hv
    rw [findPixelAcrossHole_eq_trace fuel q d mask hq] at h
    exact traceAcrossHole_ne_invalidStart mask _ fuel _ h
  · intro hv
    simp [FindPixelAcrossHole, hv]

/-- C8: for a VALID `queryPixel` `q`, if along the traversed direction `t` (the input direction,
or its negation when the first neighbour along the input direction is not an in-bounds HOLE
pixel) the pixels `q + 1*t .. q + n*t` (`n ≥ 1`) are all in bounds and HOLE and `q + (n+1)*t` is
outside the mask, then `FindPixelAcrossHole` fails with the traversal-out-of-bounds error (with
at least `n` units of fuel). -/
theorem findPixelAcrossHole_hole_to_edge (fuel : Nat) (mask : Mask) (q : Index) (d : Direction)
    (n : Nat) (hq : mask.IsValid q = true) (hn : 1 ≤ n)
    (hrun : ∀ k, k < n →
      mask.largestPossibleRegion.IsInside (pixelAlong q (chosenDirection q d mask) (k + 1)) = true ∧
        mask.IsHole (pixelAlong q (chosenDirection q d mask) (k + 1)) = true)
    (hedge : mask.largestPossibleRegion.IsInside
      (pixelAlong q (chosenDirection q d mask) (n + 1)) = false)
    (hfuel : n ≤ fuel) :
    FindPixelAcrossHole fuel q d mask =
      some (TraversalResult.error TraversalError.traversalOutOfBounds) := by
  obtain ⟨m, rfl⟩ : ∃ m, n = m + 1 := ⟨n - 1, by omega⟩
  rw [findPixelAcrossHole_eq_trace fuel q d mask hq]
  apply traceAcrossHole_edge mask _ m fuel _ ?_ ?_ ?_ (by omega)
  · intro k hk
    rw [pixelAlong_next]
    exact (hrun k (by omega)).2
  · intro k hk
    rw [pixelAlong_next]
    exact (hrun (k + 1) (by omega)).1
  · rw [pixelAlong_next]
    exact hedge

theorem findPixelAcrossHole_hole_to_edge_witness :
    edgeHoleMask.IsValid ⟨5, 4⟩ = true ∧ 1 ≤ 5 ∧
      (∀ k, k < 5 →
        edgeHoleMask.largestPossibleRegion.IsInside
            (pixelAlong ⟨5, 4⟩ (chosenDirection ⟨5, 4⟩ ⟨0, 1⟩ edgeHoleMask) (k + 1)) = true ∧
          edgeHoleMask.IsHole
            (pixelAlong ⟨5, 4⟩ (chosenDirection ⟨5, 4⟩ ⟨0, 1⟩ edgeHoleMask) (k + 1)) = true) ∧
      edgeHoleMask.largestPossibleRegion.IsInside
        (pixelAlong ⟨5, 4⟩ (chosenDirection ⟨5, 4⟩ ⟨0, 1⟩ edgeHoleMask) (5 + 1)) = false ∧
      5 ≤ 5 ∧
      FindPixelAcrossHole 5 ⟨5, 4⟩ ⟨0, 1⟩ edgeHoleMask =
        some (TraversalResult.error TraversalError.traversalOutOfBounds) :=
  ⟨by decide, by decide, by decide, by decide, by decide,
    findPixelAcrossHole_hole_to_edge 5 edgeHoleMask ⟨5, 4⟩ ⟨0, 1⟩ 5 (by decide) (by decide)
      (by decide) (by decide) (by decide)⟩

/-! ### Hole bounding box of a mask without HOLE pixels -/

theorem holeBox_foldl_of_no_hole (mask : Mask) (l : List Index)
    (h : ∀ p ∈ l, mask.IsHole p = false) (acc : Index × Index) :
    l.foldl (holeBoxStep mask) acc = acc := by
  induction l generalizing acc with
  | nil => rfl
  | cons c cs ih =>
    have hc : mask.IsHole c = false := h c (List.mem_cons_self _ _)
    have hstep : holeBoxStep mask acc c = acc := by
      simp [holeBoxStep, hc]
    rw [List.foldl_cons, hstep]
    exact ih (fun p hp => h p (List.mem_cons_of_mem _ hp)) acc

/-- C11 (counterexample): the 3x3 all-VALID mask has no HOLE pixel, and `ComputeHoleBoundingBox`
returns a region on it: corner `(3, 3)` and size `2^64 - 2` on both axes. -/
theorem computeHoleBoundingBox_allValid_returns :
    allValid3.GetHolePixelsInRegion allValid3.largestPossibleRegion = [] ∧
      ComputeHoleBoundingBox allValid3 =
        ⟨⟨3, 3⟩, ⟨18446744073709551614, 18446744073709551614⟩⟩ := by
  decide

/-- C11 (amended): for every mask in which no pixel of the full extent is classified HOLE,
`ComputeHoleBoundingBox` does not fail; it returns the region whose corner is the untouched
initial minimum, the size of the extent, and whose size on each axis is `0 - size + 1` stored as
an unsigned 64-bit value. -/
theorem computeHoleBoundingBox_of_no_hole (mask : Mask)
    (hno : ∀ p, mask.largestPossibleRegion.IsInside p = true → mask.IsHole p = false) :
    ComputeHoleBoundingBox mask =
      ⟨⟨mask.largestPossibleRegion.size.s0, mask.largestPossibleRegion.size.s1⟩,
        ⟨toSizeValue (0 - (mask.largestPossibleRegion.size.s0 : Int) + 1),
          toSizeValue (0 - (mask.largestPossibleRegion.size.s1 : Int) + 1)⟩⟩ := by
  have hfold := holeBox_foldl_of_no_hole mask mask.largestPossibleRegion.indices
    (fun p hp => hno p ((ImageRegion.mem_indices _ p).1 hp))
    (⟨mask.largestPossibleRegion.size.s0, mask.largestPossibleRegion.size.s1⟩, ⟨0, 0⟩)
  simp only [ComputeHoleBoundingBox, hfold]

theorem computeHoleBoundingBox_of_no_hole_witness :
    (∀ p, allValid3.largestPossibleRegion.IsInside p = true → allValid3.IsHole p = false) ∧
      ComputeHoleBoundingBox allValid3 =
        ⟨⟨allValid3.largestPossibleRegion.size.s0, allValid3.largestPossibleRegion.size.s1⟩,
          ⟨toSizeValue (0 - (allValid3.largestPossibleRegion.size.s0 : Int) + 1),
            toSizeValue (0 - (allValid3.largestPossibleRegion.size.s1 : Int) + 1)⟩⟩ :=
  ⟨fun _ _ => by simp [Mask.IsHole, allValid3],
    computeHoleBoundingBox_of_no_hole allValid3 (fun _ _ => by simp [Mask.IsHole, allValid3])⟩

/-! ### Where the traversal ends -/

theorem traceAcrossHole_result (mask : Mask) (d : Direction) :
    ∀ (fuel : Nat) (start p : Index),
      traceAcrossHole mask d fuel start = some (TraversalResult.ok p) →
      mask.IsHole p = false ∧
        (mask.largestPossibleRegion.IsInside start = true →
          mask.largestPossibleRegion.IsInside p = true) := by
  intro fuel
  induction fuel with
  | zero => intro start p h; simp [traceAcrossHole] at h
  | succ f ih =>
    intro start p h
    rw [traceAcrossHole] at h
    by_cases hh : mask.IsHole start = true
    · by_cases hi : mask.largestPossibleRegion.IsInside (GetNextPixelAlongVector start d) = true
      · simp only [hh, hi, if_true, Bool.not_true, Bool.false_eq_true, if_false] at h
        exact ⟨(ih _ p h).1, fun _ => (ih _ p h).2 hi⟩
      · simp [hh, hi] at h
    · have hh2 : mask.IsHole start = false := by simpa using hh
      simp only [hh2, Bool.false_eq_true, if_false, Option.some.injEq,
        TraversalResult.ok.injEq] at h
      subst h
      exact ⟨hh2, fun hs => hs⟩

/-- The index returned by `FindPixelAcrossHole` is never classified HOLE, and it lies inside the
mask's extent whenever the first neighbour along the traversed direction does. -/
theorem findPixelAcrossHole_result (fuel : Nat) (mask : Mask) (q : Index) (d : Direction)
    (p : Index) (hq : mask.IsValid q = true)
    (h : FindPixelAcrossHole fuel q d mask = some (TraversalResult.ok p)) :
    mask.IsHole p = false ∧
      (mask.largestPossibleRegion.IsInside
          (GetNextPixelAlongVector q (chosenDirection q d mask)) = true →
        mask.largestPossibleRegion.IsInside p = true) := by
  rw [findPixelAcrossHole_eq_trace fuel q d mask hq] at h
  exact traceAcrossHole_result mask _ fuel _ p h

/-- C12 (failing input): on the 3x3 all-VALID mask, `queryPixel = (0, 1)` with direction
`(1, 0)` finds the neighbour `(1, 1)` not HOLE, negates the direction and returns `(-1, 1)`
without a bounds test: the returned index is not HOLE but lies outside the mask's extent. -/
theorem findPixelAcrossHole_returns_outside (fuel : Nat) :
    allValid3.largestPossibleRegion.IsInside ⟨0, 1⟩ = true ∧
      allValid3.IsValid ⟨0, 1⟩ = true ∧
      FindPixelAcrossHole (fuel + 1) ⟨0, 1⟩ ⟨1, 0⟩ allValid3 =
        some (TraversalResult.ok ⟨-1, 1⟩) ∧
      allValid3.largestPossibleRegion.IsInside ⟨-1, 1⟩ = false := by
  refine ⟨by decide, by decide, ?_, by decide⟩
  have h1 : allValid3.IsValid ⟨0, 1⟩ = true := by decide
  have h2 : allValid3.IsHole (GetNextPixelAlongVector ⟨0, 1⟩ ⟨1, 0⟩) = false := by decide
  have h3 : GetNextPixelAlongVector ⟨0, 1⟩ (Direction.neg ⟨1, 0⟩) = ⟨-1, 1⟩ := by decide
  have h4 : allValid3.IsHole ⟨-1, 1⟩ = false := by decide
  simp [FindPixelAcrossHole, traceAcrossHole, h1, h2, h3, h4]

/-! ### Hole polarity -/

theorem Direction.neg_neg (d : Direction) : d.neg.neg = d := by
  cases d
  simp [Direction.neg]

/-- C13: for a VALID `queryPixel` `q` and a direction `d` such that exactly one of the two
neighbours of `q` (one step along `d`, one step along `-d`) is in bounds and classified HOLE,
`FindPixelAcrossHole(q, d, mask)` and `FindPixelAcrossHole(q, -d, mask)` have the same outcome,
for every amount of fuel. -/
theorem findPixelAcrossHole_polarity (fuel : Nat) (mask : Mask) (q : Index) (d : Direction)
    (hq : mask.IsValid q = true)
    (hone :
      ((mask.largestPossibleRegion.IsInside (GetNextPixelAlongVector q d) &&
          mask.IsHole (GetNextPixelAlongVector q d)) = true ∧
        (mask.largestPossibleRegion.IsInside (GetNextPixelAlongVector q d.neg) &&
          mask.IsHole (GetNextPixelAlongVector q d.neg)) = false) ∨
      ((mask.largestPossibleRegion.IsInside (GetNextPixelAlongVector q d) &&
          mask.IsHole (GetNextPixelAlongVector q d)) = false ∧
        (mask.largestPossibleRegion.IsInside (GetNextPixelAlongVector q d.neg) &&
          mask.IsHole (GetNextPixelAlongVector q d.neg)) = true)) :
    FindPixelAcrossHole fuel q d mask = FindPixelAcrossHole fuel q d.neg mask := by
  rw [findPixelAcrossHole_eq_trace fuel q d mask hq,
    findPixelAcrossHole_eq_trace fuel q d.neg mask hq]
  rcases hone with ⟨ha, hb⟩ | ⟨ha, hb⟩
  · have e1 : chosenDirection q d mask = d := by
      unfold chosenDirection
      rw [if_pos ha]
    have e2 : chosenDirection q d.neg mask = d := by
      unfold chosenDirection
      rw [if_neg (by simp [hb]), Direction.neg_neg]
    rw [e1, e2]
  · have e1 : chosenDirection q d mask = d.neg := by
      unfold chosenDirection
      rw [if_neg (by simp [ha])]
    have e2 : chosenDirection q d.neg mask = d.neg := by
      unfold chosenDirection
      rw [if_pos hb]
    rw [e1, e2]

theorem findPixelAcrossHole_polarity_witness :
    corridorMask.IsValid ⟨5, 9⟩ = true ∧
      (((corridorMask.largestPossibleRegion.IsInside (GetNextPixelAlongVector ⟨5, 9⟩ ⟨0, 1⟩) &&
          corridorMask.IsHole (GetNextPixelAlongVector ⟨5, 9⟩ ⟨0, 1⟩)) = true ∧
        (corridorMask.largestPossibleRegion.IsInside
            (GetNextPixelAlongVector ⟨5, 9⟩ (Direction.neg ⟨0, 1⟩)) &&
          corridorMask.IsHole (GetNextPixelAlongVector ⟨5, 9⟩ (Direction.neg ⟨0, 1⟩))) = false) ∨
      ((corridorMask.largestPossibleRegion.IsInside (GetNextPixelAlongVector ⟨5, 9⟩ ⟨0, 1⟩) &&
          corridorMask.IsHole (GetNextPixelAlongVector ⟨5, 9⟩ ⟨0, 1⟩)) = false ∧
        (corridorMask.largestPossibleRegion.IsInside
            (GetNextPixelAlongVector ⟨5, 9⟩ (Direction.neg ⟨0, 1⟩)) &&
          corridorMask.IsHole (GetNextPixelAlongVector ⟨5, 9⟩ (Direction.neg ⟨0, 1⟩))) = true)) ∧
      FindPixelAcrossHole 11 ⟨5, 9⟩ ⟨0, 1⟩ corridorMask = some (TraversalResult.ok ⟨5, 20⟩) ∧
      FindPixelAcrossHole 11 ⟨5, 9⟩ ⟨0, 1⟩ corridorMask =
        FindPixelAcrossHole 11 ⟨5, 9⟩ (Direction.neg ⟨0, 1⟩) corridorMask :=
  ⟨by decide, by decide, by decide,
    findPixelAcrossHole_polarity 11 corridorMask ⟨5, 9⟩ ⟨0, 1⟩ (by decide) (by decide)⟩

/-! ### The range of the random corner -/

theorem rasterBefore_iff (p q : Index) :
    rasterBefore p q = true ↔ (p.i1 < q.i1 ∨ (p.i1 = q.i1 ∧ p.i0 < q.i0)) := by
  simp [rasterBefore]

theorem ImageRegion.indices_pairwise (r : ImageRegion) :
    r.indices.Pairwise (fun p q => rasterBefore p q = true) := by
  unfold ImageRegion.indices
  rw [List.pairwise_flatMap]
  constructor
  · intro j _
    rw [List.pairwise_map]
    refine (List.pairwise_lt_range r.size.s0).imp ?_
    intro a b hab
    rw [rasterBefore_iff]
    right
    simp only [true_and]
    omega
  · refine (List.pairwise_lt_range r.size.s1).imp ?_
    intro a b hab x hx y hy
    rw [List.mem_map] at hx hy
    obtain ⟨i, _, rfl⟩ := hx
    obtain ⟨i2, _, rfl⟩ := hy
    rw [rasterBefore_iff]
    left
    simp only
    omega

/-- C15: `GetAllFullyValidRegions` returns its regions in scan order of `searchRegion`: the list
of their corners is a sublist of the raster enumeration of `searchRegion`, the corners are
strictly increasing in raster order (component `[0]` fastest, then component `[1]`), and the list
has no duplicates. As a function of the mask, `searchRegion` and `patchRadius`, the list is the
same on every call. -/
theorem getAllFullyValidRegions_scan_order (mask : Mask) (searchRegion : ImageRegion)
    (patchRadius : Nat) :
    List.Sublist ((GetAllFullyValidRegions mask searchRegion patchRadius).map fun R => R.index)
        searchRegion.indices ∧
      (GetAllFullyValidRegions mask searchRegion patchRadius).Pairwise
        (fun R S => rasterBefore R.index S.index = true) ∧
      (GetAllFullyValidRegions mask searchRegion patchRadius).Nodup := by
  have hpw : (GetAllFullyValidRegions mask searchRegion patchRadius).Pairwise
      (fun R S => rasterBefore R.index S.index = true) := by
    rw [getAllFullyValidRegions_eq_filter]
    apply List.Pairwise.filter
    rw [List.pairwise_map]
    exact searchRegion.indices_pairwise
  refine ⟨?_, hpw, ?_⟩
  · rw [getAllFullyValidRegions_eq_filter]
    have hsub : List.Sublist
        (((searchRegion.indices.map fun c => (⟨c, patchSize patchRadius⟩ : ImageRegion)).filter
          fun R => searchRegion.IsInsideRegion R && mask.IsValidRegion R).map
            (fun R : ImageRegion => R.index))
        ((searchRegion.indices.map fun c => (⟨c, patchSize patchRadius⟩ : ImageRegion)).map
          (fun R : ImageRegion => R.index)) :=
      List.Sublist.map _ (List.filter_sublist _)
    have hid : (searchRegion.indices.map fun c => (⟨c, patchSize patchRadius⟩ : ImageRegion)).map
        (fun R : ImageRegion => R.index) = searchRegion.indices := by
      rw [List.map_map]
      simp [Function.comp_def]
    rw [hid] at hsub
    exact hsub
  · refine hpw.imp ?_
    intro R S hRS hEq
    subst hEq
    rw [rasterBefore_iff] at hRS
    omega

/-! ### Rejection sampling inside the hole -/

theorem Mask.mem_getHolePixelsInRegion (m : Mask) (R : ImageRegion) (p : Index) :
    p ∈ m.GetHolePixelsInRegion R ↔ R.IsInside p = true ∧ m.IsHole p = true := by
  rw [Mask.GetHolePixelsInRegion, List.mem_filter, ImageRegion.mem_indices]

theorem Mask.isHoleRegion_iff (m : Mask) (R : ImageRegion)
    (h0 : 0 < R.size.s0) (h1 : 0 < R.size.s1) :
    m.IsHoleRegion R = true ↔
      ∀ p, R.IsInside p = true →
        m.largestPossibleRegion.IsInside p = true ∧ m.IsHole p = true := by
  simp only [Mask.IsHoleRegion, Bool.and_eq_true, List.all_eq_true, ImageRegion.mem_indices,
    ImageRegion.isInsideRegion_iff _ _ h0 h1]
  constructor
  · rintro ⟨h, k⟩ p hp
    exact ⟨h p hp, k p hp⟩
  · intro h
    exact ⟨fun p hp => (h p hp).1, fun p hp => (h p hp).2⟩

theorem randomRegionInsideHoleLoop_region (mask : Mask) (halfWidth : Nat)
    (holePixels : List Index) (draws : Nat → Nat) :
    ∀ (fuel k : Nat) (R : ImageRegion),
      randomRegionInsideHoleLoop mask halfWidth holePixels draws fuel k =
        some (SamplingResult.region R) →
      ∃ c ∈ holePixels, R = GetRegionInRadiusAroundPixel c halfWidth ∧
        mask.IsHoleRegion R = true := by
  intro fuel
  induction fuel with
  | zero => intro k R h; simp [randomRegionInsideHoleLoop] at h
  | succ f ih =>
    intro k R h
    rw [randomRegionInsideHoleLoop] at h
    by_cases hlen : holePixels.length = 0
    · simp [hlen] at h
    · simp only [hlen, dite_false] at h
      by_cases hacc : mask.IsHoleRegion (GetRegionInRadiusAroundPixel
          (holePixels.get ⟨draws k % holePixels.length,
            Nat.mod_lt _ (Nat.pos_of_ne_zero hlen)⟩) halfWidth) = true
      · simp only [hacc, Bool.not_true, Bool.false_eq_true, if_false, Option.some.injEq,
          SamplingResult.region.injEq] at h
        subst h
        exact ⟨_, List.get_mem _ _ _, rfl, hacc⟩
      · have hrej : mask.IsHoleRegion (GetRegionInRadiusAroundPixel
            (holePixels.get ⟨draws k % holePixels.length,
              Nat.mod_lt _ (Nat.pos_of_ne_zero hlen)⟩) halfWidth) = false := by
          simpa using hacc
        simp only [hrej, Bool.not_false, if_true] at h
        exact ih (k + 1) R h

/-- C16: any region returned by `RandomRegionInsideHole` is a square of side
`2 * halfWidth + 1` centred on a pixel of the mask classified HOLE, and every index it contains
lies inside the mask's full extent and is classified HOLE. -/
theorem randomRegionInsideHole_sound (fuel : Nat) (mask : Mask) (halfWidth : Nat)
    (draws : Nat → Nat) (R : ImageRegion)
    (h : RandomRegionInsideHole fuel mask halfWidth draws = some (SamplingResult.region R)) :
    R.size = ⟨2 * halfWidth + 1, 2 * halfWidth + 1⟩ ∧
      (∃ c, mask.largestPossibleRegion.IsInside c = true ∧ mask.IsHole c = true ∧
        R.index = ⟨c.i0 - (halfWidth : Int), c.i1 - (halfWidth : Int)⟩) ∧
      (∀ p, R.IsInside p = true →
        mask.largestPossibleRegion.IsInside p = true ∧ mask.IsHole p = true) := by
  obtain ⟨c, hc, hR, hhole⟩ := randomRegionInsideHoleLoop_region mask halfWidth _ draws fuel 0 R h
  have hc2 := (Mask.mem_getHolePixelsInRegion mask _ c).1 hc
  have hsize : R.size = ⟨2 * halfWidth + 1, 2 * halfWidth + 1⟩ := by
    rw [hR, GetRegionInRadiusAroundPixel]
  refine ⟨hsize, ⟨c, hc2.1, hc2.2, by rw [hR, GetRegionInRadiusAroundPixel]⟩, ?_⟩
  exact (Mask.isHoleRegion_iff mask R (by rw [hsize]; simp) (by rw [hsize]; simp)).1 hhole

theorem randomRegionInsideHole_sound_witness :
    RandomRegionInsideHole 5 allHole3 1 centreDraws =
        some (SamplingResult.region ⟨⟨0, 0⟩, ⟨3, 3⟩⟩) ∧
      (⟨⟨0, 0⟩, ⟨3, 3⟩⟩ : ImageRegion).size = ⟨2 * 1 + 1, 2 * 1 + 1⟩ ∧
      (∃ c, allHole3.largestPossibleRegion.IsInside c = true ∧ allHole3.IsHole c = true ∧
        (⟨⟨0, 0⟩, ⟨3, 3⟩⟩ : ImageRegion).index = ⟨c.i0 - ((1 : Nat) : Int), c.i1 - ((1 : Nat) : Int)⟩) ∧
      (∀ p, (⟨⟨0, 0⟩, ⟨3, 3⟩⟩ : ImageRegion).IsInside p = true →
        allHole3.largestPossibleRegion.IsInside p = true ∧ allHole3.IsHole p = true) :=
  ⟨by decide,
    randomRegionInsideHole_sound 5 allHole3 1 centreDraws ⟨⟨0, 0⟩, ⟨3, 3⟩⟩ (by decide)⟩

theorem randomRegionInsideHoleLoop_none (mask : Mask) (halfWidth : Nat)
    (holePixels : List Index) (draws : Nat → Nat) (hne : holePixels.length ≠ 0)
    (hrej : ∀ c ∈ holePixels,
      mask.IsHoleRegion (GetRegionInRadiusAroundPixel c halfWidth) = false) :
    ∀ (fuel k : Nat),
      randomRegionInsideHoleLoop mask halfWidth holePixels draws fuel k = none := by
  intro fuel
  induction fuel with
  | zero => intro k; rfl
  | succ f ih =>
    intro k
    rw [randomRegionInsideHoleLoop]
    simp only [hne, dite_false]
    rw [hrej _ (List.get_mem _ _ _)]
    simp only [Bool.not_false, if_true]
    exact ih (k + 1)

/-- C17: if the mask has at least one HOLE pixel but no square of side `2 * halfWidth + 1`
centred on a HOLE pixel of the mask is entirely HOLE, then `RandomRegionInsideHole` does not
return: for every random sequence and every amount of fuel the loop is still running when the
fuel is used up. -/
theorem randomRegionInsideHole_never_returns (fuel : Nat) (mask : Mask) (halfWidth : Nat)
    (draws : Nat → Nat)
    (hhole : ∃ c, mask.largestPossibleRegion.IsInside c = true ∧ mask.IsHole c = true)
    (hnone : ∀ c, mask.largestPossibleRegion.IsInside c = true → mask.IsHole c = true →
      mask.IsHoleRegion (GetRegionInRadiusAroundPixel c halfWidth) = false) :
    RandomRegionInsideHole fuel mask halfWidth draws = none := by
  obtain ⟨c, hc1, hc2⟩ := hhole
  have hmem : c ∈ mask.GetHolePixelsInRegion mask.largestPossibleRegion :=
    (Mask.mem_getHolePixelsInRegion mask _ c).2 ⟨hc1, hc2⟩
  have hne : (mask.GetHolePixelsInRegion mask.largestPossibleRegion).length ≠ 0 := by
    intro h0
    rw [List.length_eq_zero] at h0
    rw [h0] at hmem
    exact absurd hmem (List.not_mem_nil c)
  apply randomRegionInsideHoleLoop_none mask halfWidth _ draws hne
  intro p hp
  have hp2 := (Mask.mem_getHolePixelsInRegion mask _ p).1 hp
  exact hnone p hp2.1 hp2.2

theorem centreHoleMask_isHole (c : Index) (hc : centreHoleMask.IsHole c = true) :
    c = ⟨1, 1⟩ := by
  simp only [Mask.IsHole, centreHoleMask, decide_eq_true_eq] at hc
  split_ifs at hc with h
  obtain ⟨a, b⟩ := c
  simp only at h
  simp [h.1, h.2]

theorem randomRegionInsideHole_never_returns_witness :
    (∃ c, centreHoleMask.largestPossibleRegion.IsInside c = true ∧
        centreHoleMask.IsHole c = true) ∧
      (∀ c, centreHoleMask.largestPossibleRegion.IsInside c = true →
        centreHoleMask.IsHole c = true →
        centreHoleMask.IsHoleRegion (GetRegionInRadiusAroundPixel c 1) = false) ∧
      RandomRegionInsideHole 1000 centreHoleMask 1 constantDraws = none :=
  ⟨⟨⟨1, 1⟩, by decide, by decide⟩,
    fun c _ hc => by rw [centreHoleMask_isHole c hc]; decide,
    randomRegionInsideHole_never_returns 1000 centreHoleMask 1 constantDraws
      ⟨⟨1, 1⟩, by decide, by decide⟩
      (fun c _ hc => by rw [centreHoleMask_isHole c hc]; decide)⟩

/-! ### Selection of the random pixel -/

theorem findPixelAcrossHole_invalidStart_ne (fuel : Nat) (mask : Mask) (q : Index)
    (d : Direction) (hq : mask.IsValid q = true) :
    FindPixelAcrossHole fuel q d mask ≠
      some (TraversalResult.error TraversalError.invalidStart) := by
  rw [findPixelAcrossHole_eq_trace fuel q d mask hq]
  exact traceAcrossHole_ne_invalidStart mask _ fuel _

/-- With a measure that every step lowers and that is positive inside the extent, the trace
loop started inside the extent ends within `μ start` evaluations of its condition. -/
theorem traceAcrossHole_isSome_of_measure (mask : Mask) (t : Direction) (μ : Index → Int)
    (hstep : ∀ p, μ (GetNextPixelAlongVector p t) + 1 ≤ μ p)
    (hpos : ∀ p, mask.largestPossibleRegion.IsInside p = true → 1 ≤ μ p) :
    ∀ (fuel : Nat) (start : Index), mask.largestPossibleRegion.IsInside start = true →
      μ start ≤ (fuel : Int) → (traceAcrossHole mask t fuel start).isSome = true := by
  intro fuel
  induction fuel with
  | zero =>
    intro start hin hle
    have := hpos start hin
    simp only [Nat.cast_zero] at hle
    omega
  | succ f ih =>
    intro start hin hle
    rw [traceAcrossHole]
    by_cases hh : mask.IsHole start = true
    · by_cases hi : mask.largestPossibleRegion.IsInside (GetNextPixelAlongVector start t) = true
      · simp only [hh, hi, if_true, Bool.not_true, Bool.false_eq_true, if_false]
        apply ih _ hi
        have := hstep start
        push_cast at hle
        omega
      · simp [hh, hi]
    · simp [hh]

/-- For a non-zero step there is a measure, at most width plus height inside the extent, that
every step lowers. -/
theorem exists_traversal_measure (mask : Mask) (t : Direction) (ht : t.d0 ≠ 0 ∨ t.d1 ≠ 0) :
    ∃ μ : Index → Int,
      (∀ p, μ (GetNextPixelAlongVector p t) + 1 ≤ μ p) ∧
      (∀ p, mask.largestPossibleRegion.IsInside p = true →
        1 ≤ μ p ∧ μ p ≤ (mask.largestPossibleRegion.size.s0 : Int) +
          (mask.largestPossibleRegion.size.s1 : Int)) := by
  rcases ht with h | h
  · rcases lt_or_gt_of_ne h with hneg | hpos
    · refine ⟨fun p => p.i0 - mask.largestPossibleRegion.index.i0 + 1, ?_, ?_⟩
      · intro p
        simp only [GetNextPixelAlongVector]
        omega
      · intro p hp
        have := (ImageRegion.isInside_iff _ _).1 hp
        simp only
        omega
    · refine ⟨fun p => mask.largestPossibleRegion.index.i0 +
        (mask.largestPossibleRegion.size.s0 : Int) - p.i0, ?_, ?_⟩
      · intro p
        simp only [GetNextPixelAlongVector]
        omega
      · intro p hp
        have := (ImageRegion.isInside_iff _ _).1 hp
        simp only
        omega
  · rcases lt_or_gt_of_ne h with hneg | hpos
    · refine ⟨fun p => p.i1 - mask.largestPossibleRegion.index.i1 + 1, ?_, ?_⟩
      · intro p
        simp only [GetNextPixelAlongVector]
        omega
      · intro p hp
        have := (ImageRegion.isInside_iff _ _).1 hp
        simp only
        omega
    · refine ⟨fun p => mask.largestPossibleRegion.index.i1 +
        (mask.largestPossibleRegion.size.s1 : Int) - p.i1, ?_, ?_⟩
      · intro p
        simp only [GetNextPixelAlongVector]
        omega
      · intro p hp
        have := (ImageRegion.isInside_iff _ _).1 hp
        simp only
        omega

theorem traceAcrossHole_isSome (mask : Mask) (t : Direction) (ht : t.d0 ≠ 0 ∨ t.d1 ≠ 0)
    (fuel : Nat) (start : Index)
    (hfuel : mask.largestPossibleRegion.size.s0 + mask.largestPossibleRegion.size.s1 < fuel) :
    (traceAcrossHole mask t fuel start).isSome = true := by
  obtain ⟨μ, hstep, hbound⟩ := exists_traversal_measure mask t ht
  obtain ⟨f, rfl⟩ : ∃ f, fuel = f + 1 := ⟨fuel - 1, by omega⟩
  rw [traceAcrossHole]
  by_cases hh : mask.IsHole start = true
  · by_cases hi : mask.largestPossibleRegion.IsInside (GetNextPixelAlongVector start t) = true
    · simp only [hh, hi, if_true, Bool.not_true, Bool.false_eq_true, if_false]
      apply traceAcrossHole_isSome_of_measure mask t μ hstep (fun p hp => (hbound p hp).1) f _ hi
      have := (hbound _ hi).2
      omega
    · simp [hh, hi]
  · simp [hh]

/-- C18: for a VALID `queryPixel` and a direction whose step offset is non-zero, the trace loop
of `FindPixelAcrossHole` ends: with more than width plus height evaluations of the loop
condition allowed, the call yields a result, which is a returned index or the
traversal-out-of-bounds error. -/
theorem findPixelAcrossHole_terminates (fuel : Nat) (mask : Mask) (q : Index) (d : Direction)
    (hq : mask.IsValid q = true) (hd : d.d0 ≠ 0 ∨ d.d1 ≠ 0)
    (hfuel : mask.largestPossibleRegion.size.s0 + mask.largestPossibleRegion.size.s1 < fuel) :
    (∃ p, FindPixelAcrossHole fuel q d mask = some (TraversalResult.ok p)) ∨
      FindPixelAcrossHole fuel q d mask =
        some (TraversalResult.error TraversalError.traversalOutOfBounds) := by
  have hne := (findPixelAcrossHole_invalidStart_ne fuel mask q d hq)
  have hchosen : (chosenDirection q d mask).d0 ≠ 0 ∨ (chosenDirection q d mask).d1 ≠ 0 := by
    unfold chosenDirection
    split_ifs
    · exact hd
    · simp only [Direction.neg]
      omega
  have hsome := traceAcrossHole_isSome mask (chosenDirection q d mask) hchosen fuel
    (GetNextPixelAlongVector q (chosenDirection q d mask)) hfuel
  rw [← findPixelAcrossHole_eq_trace fuel q d mask hq] at hsome
  obtain ⟨res, hres⟩ := Option.isSome_iff_exists.1 hsome
  rw [hres] at hne ⊢
  cases res with
  | ok p => exact Or.inl ⟨p, rfl⟩
  | error e =>
    cases e with
    | invalidStart => exact absurd rfl hne
    | traversalOutOfBounds => exact Or.inr rfl

theorem findPixelAcrossHole_terminates_witness :
    edgeHoleMask.IsValid ⟨5, 4⟩ = true ∧
      ((⟨0, 1⟩ : Direction).d0 ≠ 0 ∨ (⟨0, 1⟩ : Direction).d1 ≠ 0) ∧
      edgeHoleMask.largestPossibleRegion.size.s0 + edgeHoleMask.largestPossibleRegion.size.s1 <
        21 ∧
      ((∃ p, FindPixelAcrossHole 21 ⟨5, 4⟩ ⟨0, 1⟩ edgeHoleMask = some (TraversalResult.ok p)) ∨
        FindPixelAcrossHole 21 ⟨5, 4⟩ ⟨0, 1⟩ edgeHoleMask =
          some (TraversalResult.error TraversalError.traversalOutOfBounds)) :=
  ⟨by decide, by decide, by decide,
    findPixelAcrossHole_terminates 21 edgeHoleMask ⟨5, 4⟩ ⟨0, 1⟩ (by decide) (by decide)
      (by decide)⟩

end MaskOperations
